import Mathlib

set_option maxHeartbeats 1000000

/-!
Shallow embedding of the ArchiveChain sealing/unsealing protocol
("Whistleblower Mode") and its resilient multi-node transfer layer.

Byte buffers are `List Nat`, one entry per byte.  The cryptographic
primitives the code delegates to (AES-256-GCM via Node `crypto` /
Web Crypto, RSA-OAEP-SHA256, SPKI/PKCS8 DER serialization) are
abstracted as structures whose fields state the contracts the code
relies on; every piece of framing, failover and handler logic is
translated directly from the source files
`walrus-test/index.mjs` (backend) and `frontend/src/App.tsx` (viewer).
-/

/-- Characters of the PEM line the backend prepends to the bare base64 key
body inside `sealBuffer` (the string between the backticks in the source). -/
def pemHeader : List Char :=
  ['-','-','-','-','-','B','E','G','I','N',' ','P','U','B','L','I','C',' ','K','E','Y','-','-','-','-','-']

/-- Characters of the PEM line the backend appends after the key body. -/
def pemFooter : List Char :=
  ['-','-','-','-','-','E','N','D',' ','P','U','B','L','I','C',' ','K','E','Y','-','-','-','-','-']

/-- Big-endian two-byte encoding, as `Buffer.writeUInt16BE` produces for
values below 2^16 (larger values make Node throw `ERR_OUT_OF_RANGE`;
theorems that rely on the field being two genuine bytes carry the
hypothesis `n < 65536`). -/
def uint16be (n : Nat) : List Nat := [n / 256, n % 256]

/-- Idealized model of the AES-GCM authenticated cipher used on both sides
(Node `createCipheriv('aes-256-gcm', ...)` and Web Crypto `AES-GCM`).
GCM is counter-mode encryption followed by a tag over the ciphertext, so it
is modelled as a length-preserving, invertible ciphertext transform `ctOf`
plus a 16-byte tag `tagOf` computed over the ciphertext.  `tagInj` is the
ideal-MAC assumption: for a fixed key and IV, distinct ciphertexts never
share a tag (for real GCM this holds except with negligible probability). -/
structure AEAD where
  ctOf : List Nat → List Nat → List Nat → List Nat
  ctDec : List Nat → List Nat → List Nat → List Nat
  tagOf : List Nat → List Nat → List Nat → List Nat
  ctLen : ∀ k iv m, (ctOf k iv m).length = m.length
  ctDec_ctOf : ∀ k iv m, ctDec k iv (ctOf k iv m) = m
  tagLen : ∀ k iv c, (tagOf k iv c).length = 16
  tagInj : ∀ k iv c c', tagOf k iv c = tagOf k iv c' → c = c'

/-- Web Crypto `crypto.subtle.encrypt({name: "AES-GCM"})` output: the
ciphertext with the 16-byte authentication tag appended. -/
def gcmEncrypt (A : AEAD) (k iv m : List Nat) : List Nat :=
  A.ctOf k iv m ++ A.tagOf k iv (A.ctOf k iv m)

/-- Web Crypto `crypto.subtle.decrypt({name: "AES-GCM"})`: split off the
trailing 16-byte tag, verify it against the ciphertext, and decrypt; any
failure (input shorter than a tag, or tag mismatch) is an `OperationError`,
modelled as `none`. -/
def gcmDecrypt (A : AEAD) (k iv c : List Nat) : Option (List Nat) :=
  if c.length < 16 then none
  else if c.drop (c.length - 16) = A.tagOf k iv (c.take (c.length - 16))
  then some (A.ctDec k iv (c.take (c.length - 16)))
  else none

/-- Idealized model of the RSA-OAEP-SHA256 key-wrapping primitive together
with Node's PEM public-key parser.  `pubOf` maps a private key to its unique
matching public key.  `encLen` records that the RSA ciphertext length is
fixed by the public key (the modulus size, e.g. 256 bytes for RSA-2048);
`dec_enc` is OAEP correctness, `wrongKey` the guarantee that OAEP
decryption with a non-matching private key fails, and `decLen` that RSA
decryption rejects inputs that are not exactly modulus-sized.  `parseSound`
models the PEM/base64 layer of `crypto.publicEncrypt`: a string shaped as
header, body and footer lines parses only if the body is free of the `-`
delimiter character (which is not in the base64 alphabet). -/
structure RSA where
  Pub : Type
  Priv : Type
  enc : Pub → List Nat → List Nat
  dec : Priv → List Nat → Option (List Nat)
  pubOf : Priv → Pub
  klen : Pub → Nat
  encLen : ∀ pk m, (enc pk m).length = klen pk
  dec_enc : ∀ sk m, dec sk (enc (pubOf sk) m) = some m
  wrongKey : ∀ sk pk m, pk ≠ pubOf sk → dec sk (enc pk m) = none
  decLen : ∀ sk c, c.length ≠ klen (pubOf sk) → dec sk c = none
  parsePem : List Char → Option Pub
  parseSound : ∀ body k,
    parsePem (pemHeader ++ '\n' :: (body ++ '\n' :: pemFooter)) = some k → '-' ∉ body

/-- Template-literal wrapping performed inside `sealBuffer`:
formattedKey of the source. -/
def formatPublicKeyPem (publicKeyPem : List Char) : List Char :=
  pemHeader ++ '\n' :: (publicKeyPem ++ '\n' :: pemFooter)

/-- Node `crypto.publicEncrypt` with OAEP/SHA-256: parse the PEM string,
then wrap the message under the parsed key; a parse failure throws,
modelled as `none`. -/
def publicEncryptOaep (R : RSA) (pemKey : List Char) (m : List Nat) : Option (List Nat) :=
  (R.parsePem pemKey).map fun pk => R.enc pk m

/-- Backend `sealBuffer(buffer, publicKeyPem)` from `walrus-test/index.mjs`:
AES-256-GCM-encrypt the payload under a fresh key and IV (randomness is
passed explicitly as `aesKey`/`iv`), wrap the AES key under the recipient's
RSA public key (the bare base64 body is first wrapped in PEM delimiter
lines), and pack
IV (16) ++ AuthTag (16) ++ KeyLength (2, big-endian) ++ EncryptedKey ++ EncryptedContent.
A `publicEncrypt` failure propagates as `none`. -/
def sealBuffer (A : AEAD) (R : RSA) (buffer : List Nat) (publicKeyPem : List Char)
    (aesKey iv : List Nat) : Option (List Nat) :=
  let encryptedContent := A.ctOf aesKey iv buffer
  let authTag := A.tagOf aesKey iv encryptedContent
  match publicEncryptOaep R (formatPublicKeyPem publicKeyPem) aesKey with
  | none => none
  | some encryptedAesKey =>
      some (iv ++ authTag ++ uint16be encryptedAesKey.length ++ encryptedAesKey ++ encryptedContent)

/-- Viewer `decryptBlob(blob, privateKey)` from `frontend/src/utils/crypto.ts`:
slice IV and AuthTag, read `KeyLength` big-endian at offset 32
(`DataView.getUint16` throws `RangeError` when the buffer is shorter than 34
bytes, modelled by the length guard), slice the wrapped key and the content
(JS `slice` clamps out-of-range indices), RSA-decrypt the AES key, append the
tag to the content as Web Crypto expects, and AES-GCM-decrypt.  Since the
guard ensures at least 34 bytes, the AuthTag slice is exactly 16 bytes, so
the tag-buffer copy in the source is plain concatenation here.  Every
failure surfaces as `none`. -/
def decryptBlob (A : AEAD) (R : RSA) (sk : R.Priv) (blob : List Nat) : Option (List Nat) :=
  if blob.length < 34 then none
  else
    let iv := blob.take 16
    let authTag := (blob.drop 16).take 16
    let keyLength := 256 * blob.getD 32 0 + blob.getD 33 0
    let encryptedKey := (blob.drop 34).take keyLength
    let content := blob.drop (34 + keyLength)
    match R.dec sk encryptedKey with
    | none => none
    | some aesKeyRaw => gcmDecrypt A aesKeyRaw iv (content ++ authTag)

/-- Viewer helper `decryptSealedBlob` inside `ArchiveViewer.tsx`; its body
duplicates `decryptBlob` verbatim, so it is embedded as the same function. -/
def decryptSealedBlob (A : AEAD) (R : RSA) (sk : R.Priv) (blob : List Nat) : Option (List Nat) :=
  decryptBlob A R sk blob

/-- Frontend `encryptData(data, publicKey)` from `frontend/src/utils/crypto.ts`:
12-byte IV, AES-GCM via Web Crypto (tag appended to the ciphertext), RSA-wrapped
AES key, and the blob `iv ++ keyLength ++ encryptedKey ++ encryptedContent`
where `keyLength` is the byte image of `new Uint16Array([n])` — two bytes in
platform (little-endian) order, value reduced mod 2^16.  Note: no separate
AuthTag field and no 16-byte IV. -/
def encryptData (A : AEAD) (R : RSA) (pk : R.Pub) (data aesKey iv : List Nat) : List Nat :=
  let encryptedContent := gcmEncrypt A aesKey iv data
  let encryptedAesKey := R.enc pk aesKey
  let keyLength := [encryptedAesKey.length % 256, encryptedAesKey.length / 256 % 256]
  iv ++ keyLength ++ encryptedAesKey ++ encryptedContent

/-! Resilient transfer layer. -/

/-- Per-publisher outcome of one `PUT /v1/blobs` attempt: the fetch throws,
or returns a non-ok status, or returns ok with one of the two accepted JSON
shapes (`newlyCreated` / `alreadyCertified`), or ok with an unrecognized
shape (which the source turns into a thrown `Invalid response structure`
error). -/
inductive WalrusPutOutcome where
  | transportFail (e : Nat)
  | httpFail (status : Nat)
  | okNewlyCreated (blobId : Nat)
  | okAlreadyCertified (blobId : Nat)
  | okInvalidShape
  deriving DecidableEq

/-- Error recorded in `lastError` for a failing attempt. -/
inductive PutErr where
  | transport (e : Nat)
  | http (status : Nat)
  | invalidShape
  deriving DecidableEq

/-- Result of `uploadToWalrusDirectly`: a blob id, or the final
`All Walrus publishers failed` error carrying the last observed error. -/
inductive UploadOutcome where
  | success (blobId : Nat)
  | exhausted (lastError : Option PutErr)
  deriving DecidableEq

/-- Blob id extracted from an accepted response shape, if any. -/
def handleOf? : WalrusPutOutcome → Option Nat
  | .okNewlyCreated blobId => some blobId
  | .okAlreadyCertified blobId => some blobId
  | _ => none

/-- Error a failing outcome stores into `lastError` (unused for accepted
outcomes). -/
def errOf : WalrusPutOutcome → PutErr
  | .transportFail e => .transport e
  | .httpFail status => .http status
  | _ => .invalidShape

/-- Loop body of `uploadToWalrusDirectly`: walk the publisher list in order,
return on the first accepted response, remember the last error otherwise;
also counts the attempts made. -/
def uploadGo : List WalrusPutOutcome → Option PutErr → Nat → UploadOutcome × Nat
  | [], lastError, n => (.exhausted lastError, n)
  | o :: rest, _, n =>
      match o with
      | .okNewlyCreated blobId => (.success blobId, n + 1)
      | .okAlreadyCertified blobId => (.success blobId, n + 1)
      | .transportFail e => uploadGo rest (some (.transport e)) (n + 1)
      | .httpFail status => uploadGo rest (some (.http status)) (n + 1)
      | .okInvalidShape => uploadGo rest (some .invalidShape) (n + 1)

/-- Backend `uploadToWalrusDirectly(fileBuffer)`: the endpoint pool is fixed,
so a run is determined by the per-publisher outcome assignment, given in
pool order. -/
def uploadToWalrusDirectly (outs : List WalrusPutOutcome) : UploadOutcome × Nat :=
  uploadGo outs none 0

/-- Per-aggregator outcome of one `GET /v1/blobs/{id}` attempt in the
viewer's `fetchHtml`. -/
inductive AggOutcome where
  | transportFail
  | httpFail (status : Nat)
  | okBlob (bytes : List Nat)
  deriving DecidableEq

/-- Whether an aggregator outcome delivered a blob. -/
def isOkBlob : AggOutcome → Bool
  | .okBlob _ => true
  | _ => false

/-- Post-fetch rendering in `fetchHtml`: try `JSZip.loadAsync` and read
`index.html` (`unzip`, `none` when loading throws), falling back to
`blob.text()` (`toText`). -/
def renderBlob (unzip : List Nat → Option (List Char)) (toText : List Nat → List Char)
    (b : List Nat) : List Char :=
  match unzip b with
  | some html => html
  | none => toText b

/-- Loop body of the viewer's `fetchHtml`: walk the aggregator pool in order.
A non-ok or failed fetch moves to the next aggregator.  For a sealed archive,
a missing private key and a failed `decryptSealedBlob` both raise errors
inside the loop's try block, so the enclosing catch moves to the next
aggregator as well.  Returns the rendered content (or `none` for the final
`Could not fetch content from any node` error, which carries no cause),
plus the number of endpoint attempts and of decryption attempts. -/
def fetchGo (A : AEAD) (R : RSA) (priv : Option R.Priv) (sealed : Bool)
    (unzip : List Nat → Option (List Char)) (toText : List Nat → List Char) :
    List AggOutcome → Nat → Nat → Option (List Char) × Nat × Nat
  | [], eAtt, dAtt => (none, eAtt, dAtt)
  | .transportFail :: rest, eAtt, dAtt => fetchGo A R priv sealed unzip toText rest (eAtt + 1) dAtt
  | .httpFail _ :: rest, eAtt, dAtt => fetchGo A R priv sealed unzip toText rest (eAtt + 1) dAtt
  | .okBlob b :: rest, eAtt, dAtt =>
      if sealed then
        match priv with
        | none => fetchGo A R priv sealed unzip toText rest (eAtt + 1) dAtt
        | some sk =>
            match decryptSealedBlob A R sk b with
            | none => fetchGo A R priv sealed unzip toText rest (eAtt + 1) (dAtt + 1)
            | some plain => (some (renderBlob unzip toText plain), eAtt + 1, dAtt + 1)
      else (some (renderBlob unzip toText b), eAtt + 1, dAtt)

/-- Viewer `fetchHtml(version)`: sealedness is decided by whether the
archive's on-chain title contains the lock marker, then the aggregator pool
is walked in order. -/
def fetchHtml (A : AEAD) (R : RSA) (priv : Option R.Priv) (title : List Char)
    (unzip : List Nat → Option (List Char)) (toText : List Nat → List Char)
    (outs : List AggOutcome) : Option (List Char) × Nat × Nat :=
  fetchGo A R priv (title.contains '🔒') unzip toText outs 0 0

/-! Archive handler. -/

/-- Backend title decoration: sealed archives get the lock-prefix
(`finalTitle` in the `/api/archive` handler). -/
def finalTitleOf (isEncrypted : Bool) (title : List Char) : List Char :=
  if isEncrypted then '🔒' :: ' ' :: title else title

/-- Observable effects of one `/api/archive` request, as a trace record:
whether the response was ok, which bytes were hashed, which bytes were
handed to the transfer layer, the upload result, the title and hash put in
the response, the title written on chain, and the `isEncrypted` flag. -/
structure ArchiveRun where
  ok : Bool
  hashedBytes : Option (List Nat)
  uploadedBytes : Option (List Nat)
  uploadResult : Option (UploadOutcome × Nat)
  respTitle : Option (List Char)
  chainTitle : Option (List Char)
  respHash : Option (List Nat)
  isEncrypted : Bool

/-- Steps 4-7 of the `/api/archive` handler, after the seal decision:
hash the final buffer, upload that same buffer, then (on success) decorate
the title, optionally write on chain, and respond. -/
def archiveAfterSeal (H : List Nat → List Nat) (title : List Char)
    (finalBuffer : List Nat) (isEnc : Bool) (outs : List WalrusPutOutcome)
    (chainConfigured : Bool) : ArchiveRun :=
  let contentHash := H finalBuffer
  let up := uploadToWalrusDirectly outs
  match up.1 with
  | .exhausted _ =>
      { ok := false, hashedBytes := some finalBuffer, uploadedBytes := some finalBuffer,
        uploadResult := some up, respTitle := none, chainTitle := none,
        respHash := none, isEncrypted := isEnc }
  | .success _ =>
      let finalTitle := finalTitleOf isEnc title
      { ok := true, hashedBytes := some finalBuffer, uploadedBytes := some finalBuffer,
        uploadResult := some up, respTitle := some finalTitle,
        chainTitle := if chainConfigured then some finalTitle else none,
        respHash := some contentHash, isEncrypted := isEnc }

/-- The `/api/archive` handler from the seal step on (capture and zipping
produce `zipBuffer`): when a recipient public key is supplied the zip is
sealed — a sealing failure answers 500 immediately, before any hashing,
upload or on-chain write — and otherwise the plain zip flows on. -/
def archiveHandler (A : AEAD) (R : RSA) (H : List Nat → List Nat) (title : List Char)
    (recipientPublicKey : Option (List Char)) (zipBuffer aesKey iv : List Nat)
    (outs : List WalrusPutOutcome) (chainConfigured : Bool) : ArchiveRun :=
  match recipientPublicKey with
  | some pem =>
      match sealBuffer A R zipBuffer pem aesKey iv with
      | none =>
          { ok := false, hashedBytes := none, uploadedBytes := none,
            uploadResult := none, respTitle := none, chainTitle := none,
            respHash := none, isEncrypted := false }
      | some finalBuffer => archiveAfterSeal H title finalBuffer true outs chainConfigured
  | none => archiveAfterSeal H title zipBuffer false outs chainConfigured

/-! Key export/import (frontend `crypto.ts`). -/

/-- Character code of one base64 digit (the standard alphabet used by
`window.btoa`). -/
def b64c (i : Nat) : Nat :=
  if i < 26 then 65 + i
  else if i < 52 then 97 + (i - 26)
  else if i < 62 then 48 + (i - 52)
  else if i = 62 then 43 else 47

/-- Inverse of `b64c` as `window.atob` applies it: `none` on characters
outside the base64 alphabet (including the `=` pad, code 61). -/
def b64idx (c : Nat) : Option Nat :=
  if 65 ≤ c ∧ c ≤ 90 then some (c - 65)
  else if 97 ≤ c ∧ c ≤ 122 then some (c - 97 + 26)
  else if 48 ≤ c ∧ c ≤ 57 then some (c - 48 + 52)
  else if c = 43 then some 62
  else if c = 47 then some 63
  else none

/-- Base64 encoding of a byte list, as `window.btoa` performs on the binary
string built by `String.fromCharCode(...bytes)`: three bytes become four
digits, with `=` padding (code 61) for one or two trailing bytes. -/
def b64encode : List Nat → List Nat
  | [] => []
  | [a] => [b64c (a / 4), b64c (a % 4 * 16), 61, 61]
  | [a, b] => [b64c (a / 4), b64c (a % 4 * 16 + b / 16), b64c (b % 16 * 4), 61]
  | a :: b :: c :: rest =>
      b64c (a / 4) :: b64c (a % 4 * 16 + b / 16) :: b64c (b % 16 * 4 + c / 64) ::
        b64c (c % 64) :: b64encode rest

/-- Base64 decoding of a character-code list, as `window.atob`: groups of
four digits yield three bytes, a final `xy==` group one byte and a final
`xyz=` group two bytes; anything else (bad length, digit outside the
alphabet, misplaced pad) throws `InvalidCharacterError`, modelled as
`none`. -/
def b64decode : List Nat → Option (List Nat)
  | [] => some []
  | w :: x :: y :: z :: rest =>
      match b64idx w, b64idx x with
      | some i, some j =>
          if y = 61 then
            if z = 61 && rest.isEmpty then some [i * 4 + j / 16] else none
          else
            match b64idx y with
            | some k =>
                if z = 61 then
                  if rest.isEmpty then some [i * 4 + j / 16, j % 16 * 16 + k / 4] else none
                else
                  match b64idx z, b64decode rest with
                  | some m, some tail =>
                      some ((i * 4 + j / 16) :: (j % 16 * 16 + k / 4) ::
                        (k % 4 * 64 + m) :: tail)
                  | _, _ => none
            | none => none
      | _, _ => none
  | _ => none

/-- Abstraction of `crypto.subtle.exportKey`/`importKey` for the `spki`
(public) and `pkcs8` (private) DER serializations: export yields genuine
bytes, and import of an exported key returns the same key (the Web Crypto
contract the frontend relies on). -/
structure SubtleCodec (R : RSA) where
  spkiOf : R.Pub → List Nat
  importSpki : List Nat → Option R.Pub
  pkcs8Of : R.Priv → List Nat
  importPkcs8 : List Nat → Option R.Priv
  spki_lt : ∀ k b, b ∈ spkiOf k → b < 256
  pkcs8_lt : ∀ sk b, b ∈ pkcs8Of sk → b < 256
  import_spkiOf : ∀ k, importSpki (spkiOf k) = some k
  import_pkcs8Of : ∀ sk, importPkcs8 (pkcs8Of sk) = some sk

/-- Frontend `exportKey`: spki-export then `btoa`. -/
def exportKey (R : RSA) (C : SubtleCodec R) (k : R.Pub) : List Nat :=
  b64encode (C.spkiOf k)

/-- Frontend `importPublicKey`: `atob`, then spki-import; either step can
fail. -/
def importPublicKey (R : RSA) (C : SubtleCodec R) (pem : List Nat) : Option R.Pub :=
  (b64decode pem).bind C.importSpki

/-- Frontend `exportPrivateKey`: pkcs8-export then `btoa`. -/
def exportPrivateKey (R : RSA) (C : SubtleCodec R) (sk : R.Priv) : List Nat :=
  b64encode (C.pkcs8Of sk)

/-- Frontend `importPrivateKey`: `atob`, then pkcs8-import. -/
def importPrivateKey (R : RSA) (C : SubtleCodec R) (pem : List Nat) : Option R.Priv :=
  (b64decode pem).bind C.importPkcs8

/-! Concrete instances of the primitive contracts.  They are not part of the
embedded program; they witness that the contracts stated above are
satisfiable and provide computable inputs for the concrete evaluations
below. -/

/-- Kernel-computable injective pairing: the code of `(a, b)` is
`2 ^ a * (2 * b + 1) - 1`. -/
def pairK (a b : Nat) : Nat := 2 ^ a * (2 * b + 1) - 1

/-- Fueled extraction of the 2-adic valuation and odd part of a number. -/
def stripTwos : Nat → Nat → Nat × Nat
  | 0, y => (0, y)
  | f + 1, y =>
      if y % 2 = 0 then ((stripTwos f (y / 2)).1 + 1, (stripTwos f (y / 2)).2)
      else (0, y)

/-- Inverse of `pairK`. -/
def unpairK (n : Nat) : Nat × Nat :=
  ((stripTwos n (n + 1)).1, ((stripTwos n (n + 1)).2 - 1) / 2)

theorem stripTwos_pow (a : Nat) : ∀ f b, a ≤ f →
    stripTwos f (2 ^ a * (2 * b + 1)) = (a, 2 * b + 1) := by
  induction a with
  | zero =>
      intro f b _
      cases f with
      | zero => simp [stripTwos]
      | succ f' =>
          simp only [stripTwos, pow_zero, one_mul]
          rw [if_neg (by omega)]
  | succ a' ih =>
      intro f b hf
      cases f with
      | zero => omega
      | succ f' =>
          have hy : 2 ^ (a' + 1) * (2 * b + 1) = 2 * (2 ^ a' * (2 * b + 1)) := by ring
          simp only [stripTwos]
          rw [hy, if_pos (by simp [Nat.mul_mod_right]),
            Nat.mul_div_cancel_left _ (by norm_num), ih f' b (by omega)]

theorem unpairK_pairK (a b : Nat) : unpairK (pairK a b) = (a, b) := by
  have hpos : 0 < 2 ^ a * (2 * b + 1) :=
    Nat.mul_pos (pow_pos (by norm_num) a) (by omega)
  have hle : 2 ^ a ≤ 2 ^ a * (2 * b + 1) :=
    Nat.le_mul_of_pos_right _ (by omega)
  have hlt : a < 2 ^ a := Nat.lt_two_pow a
  unfold unpairK pairK
  rw [Nat.sub_add_cancel hpos, stripTwos_pow a _ b (by omega)]
  have h2 : (2 * b + 1 - 1) / 2 = b := by omega
  simp [h2]

theorem pairK_inj {a b c d : Nat} (h : pairK a b = pairK c d) : a = c ∧ b = d := by
  have h2 := congrArg unpairK h
  rw [unpairK_pairK, unpairK_pairK, Prod.mk.injEq] at h2
  exact h2

/-- Injective numeric code of a byte list: the length paired with the
right fold of `pairK`. -/
def encL (l : List Nat) : Nat := pairK l.length (l.foldr pairK 0)

/-- Peel `k` layers of `pairK` off a code. -/
def decLAux : Nat → Nat → List Nat
  | 0, _ => []
  | k + 1, x => (unpairK x).1 :: decLAux k (unpairK x).2

/-- Inverse of `encL`. -/
def decL (n : Nat) : List Nat := decLAux (unpairK n).1 (unpairK n).2

theorem decLAux_foldr (l : List Nat) : decLAux l.length (l.foldr pairK 0) = l := by
  induction l with
  | nil => rfl
  | cons a t ih => simp [decLAux, unpairK_pairK, ih]

theorem decL_encL (l : List Nat) : decL (encL l) = l := by
  simp [decL, encL, unpairK_pairK, decLAux_foldr]

theorem encL_inj {l₁ l₂ : List Nat} (h : encL l₁ = encL l₂) : l₁ = l₂ := by
  have h' := congrArg decL h
  simpa [decL_encL] using h'

/-- Toy authenticated cipher satisfying the idealized AES-GCM contract:
the ciphertext shifts every byte up by one, and the tag stores injective
codes of the key, the IV and the ciphertext in its first three cells
followed by thirteen zeros. -/
def toyAEAD : AEAD where
  ctOf _ _ m := m.map Nat.succ
  ctDec _ _ c := c.map Nat.pred
  tagOf k iv c := encL k :: encL iv :: encL c :: List.replicate 13 0
  ctLen := by intro k iv m; simp
  ctDec_ctOf := by
    intro k iv m
    induction m with
    | nil => rfl
    | cons a t ih => simpa using ih
  tagLen := by intro k iv c; simp
  tagInj := by
    intro k iv c c' h
    simp only [List.cons.injEq] at h
    exact encL_inj h.2.2.1

/-- Shape test of the toy PEM parser: a header line, a dash-free body and a
footer line. -/
def pemShapeOk (s : List Char) : Bool :=
  decide (52 ≤ s.length) &&
  decide (s.take 27 = pemHeader ++ ['\n']) &&
  decide (s.drop (s.length - 25) = '\n' :: pemFooter) &&
  ((s.drop 27).take (s.length - 52)).all (fun c => c != '-')

/-- Toy PEM parser: accepts exactly the well-shaped strings and always
yields key 0. -/
def toyParse (s : List Char) : Option Nat :=
  if pemShapeOk s then some 0 else none

theorem pemShapeOk_wrap_no_dash {body : List Char}
    (h : pemShapeOk (pemHeader ++ '\n' :: (body ++ '\n' :: pemFooter)) = true) :
    '-' ∉ body := by
  have hsplit : pemHeader ++ '\n' :: (body ++ '\n' :: pemFooter) =
      (pemHeader ++ ['\n']) ++ (body ++ '\n' :: pemFooter) := by simp
  have hlen : (pemHeader ++ ['\n'] ++ (body ++ '\n' :: pemFooter)).length =
      52 + body.length := by simp [pemHeader, pemFooter]; omega
  have hmid : (((pemHeader ++ '\n' :: (body ++ '\n' :: pemFooter)).drop 27).take
      ((pemHeader ++ '\n' :: (body ++ '\n' :: pemFooter)).length - 52)) = body := by
    rw [hsplit, hlen]
    rw [List.drop_left' (by simp [pemHeader])]
    have h52 : 52 + body.length - 52 = body.length := by omega
    rw [h52, List.take_left' rfl]
  have hall := (Bool.and_eq_true _ _).mp h
  have hall4 := hall.2
  rw [hmid] at hall4
  intro hm
  have := List.all_eq_true.mp hall4 '-' hm
  simp at this

/-- Toy RSA: keys are naturals (`pubOf` the identity), the one-byte
ciphertext stores the pair of the public key with the message code, and
decryption checks the embedded key. -/
abbrev toyRSA : RSA where
  Pub := Nat
  Priv := Nat
  enc pk m := [pairK pk (encL m)]
  dec sk c :=
    match c with
    | [n] => if (unpairK n).1 = sk then some (decL (unpairK n).2) else none
    | _ => none
  pubOf := id
  klen _ := 1
  encLen := by intro pk m; rfl
  dec_enc := by intro sk m; simp [unpairK_pairK, decL_encL]
  wrongKey := by intro sk pk m h; simp [unpairK_pairK]; intro hh; exact absurd hh h
  decLen := by
    intro sk c h
    match c with
    | [] => rfl
    | [n] => exact absurd rfl h
    | a :: b :: t => rfl
  parsePem := toyParse
  parseSound := by
    intro body k h
    have hsh : pemShapeOk (pemHeader ++ '\n' :: (body ++ '\n' :: pemFooter)) = true := by
      by_contra hc
      simp [toyParse, hc] at h
    exact pemShapeOk_wrap_no_dash hsh

/-- Toy key serializer: the public key `k` exports to `k` zero bytes, the
private key `sk` to `sk` one bytes; import recovers the key from the
length. -/
def toyCodec : SubtleCodec toyRSA where
  spkiOf k := List.replicate k 0
  importSpki l := some l.length
  pkcs8Of sk := List.replicate sk 1
  importPkcs8 l := some l.length
  spki_lt := by intro k b hb; have := List.eq_of_mem_replicate hb; omega
  pkcs8_lt := by intro sk b hb; have := List.eq_of_mem_replicate hb; omega
  import_spkiOf := by intro k; simp
  import_pkcs8Of := by intro sk; simp

/-! Parsing and framing lemmas. -/

theorem getD_via_drop (l : List Nat) (n a : Nat) (t : List Nat)
    (h : l.drop n = a :: t) : l.getD n 0 = a := by
  induction l generalizing n with
  | nil => simp at h
  | cons b l' ih =>
      cases n with
      | zero => simp at h; simp [h.1]
      | succ k => exact ih k h

theorem gcmDecrypt_append (A : AEAD) (k iv ct tg : List Nat) (htg : tg.length = 16) :
    gcmDecrypt A k iv (ct ++ tg) =
      if tg = A.tagOf k iv ct then some (A.ctDec k iv ct) else none := by
  unfold gcmDecrypt
  have hlen : (ct ++ tg).length = ct.length + 16 := by simp [htg]
  rw [if_neg (by omega)]
  have h1 : (ct ++ tg).length - 16 = ct.length := by omega
  rw [h1, List.drop_left, List.take_left]

theorem gcmDecrypt_gcmEncrypt (A : AEAD) (k iv m : List Nat) :
    gcmDecrypt A k iv (gcmEncrypt A k iv m) = some m := by
  unfold gcmEncrypt
  rw [gcmDecrypt_append A k iv _ _ (A.tagLen ..), if_pos rfl, A.ctDec_ctOf]

theorem sealBuffer_eq (A : AEAD) (R : RSA) (buffer : List Nat) (pemB : List Char)
    (aesKey iv : List Nat) (pk : R.Pub)
    (hparse : R.parsePem (formatPublicKeyPem pemB) = some pk) :
    sealBuffer A R buffer pemB aesKey iv =
      some (iv ++ A.tagOf aesKey iv (A.ctOf aesKey iv buffer) ++
        uint16be (R.enc pk aesKey).length ++ R.enc pk aesKey ++ A.ctOf aesKey iv buffer) := by
  simp [sealBuffer, publicEncryptOaep, hparse]

theorem decryptBlob_parts (A : AEAD) (R : RSA) (sk : R.Priv)
    (iv tag : List Nat) (x0 x1 : Nat) (rest : List Nat)
    (hiv : iv.length = 16) (htag : tag.length = 16) :
    decryptBlob A R sk (iv ++ (tag ++ ([x0, x1] ++ rest))) =
      match R.dec sk (rest.take (256 * x0 + x1)) with
      | none => none
      | some aesKeyRaw =>
          gcmDecrypt A aesKeyRaw iv (rest.drop (256 * x0 + x1) ++ tag) := by
  have hassoc32 : iv ++ (tag ++ ([x0, x1] ++ rest)) = (iv ++ tag) ++ ([x0, x1] ++ rest) := by
    simp
  have hassoc34 : iv ++ (tag ++ ([x0, x1] ++ rest)) = ((iv ++ tag) ++ [x0, x1]) ++ rest := by
    simp
  have hlen : (iv ++ (tag ++ ([x0, x1] ++ rest))).length = 34 + rest.length := by
    simp [hiv, htag]; omega
  have hdrop32 : (iv ++ (tag ++ ([x0, x1] ++ rest))).drop 32 = x0 :: x1 :: rest := by
    rw [hassoc32, List.drop_left' (by simp [hiv, htag])]
    rfl
  have hdrop33 : (iv ++ (tag ++ ([x0, x1] ++ rest))).drop 33 = x1 :: rest := by
    rw [show (33 : Nat) = 32 + 1 from rfl, ← List.drop_drop, hdrop32]
    rfl
  have hdrop34 : (iv ++ (tag ++ ([x0, x1] ++ rest))).drop 34 = rest := by
    rw [hassoc34, List.drop_left' (by simp [hiv, htag])]
  have hg32 : (iv ++ (tag ++ ([x0, x1] ++ rest))).getD 32 0 = x0 := getD_via_drop _ _ _ _ hdrop32
  have hg33 : (iv ++ (tag ++ ([x0, x1] ++ rest))).getD 33 0 = x1 := getD_via_drop _ _ _ _ hdrop33
  have htake16 : (iv ++ (tag ++ ([x0, x1] ++ rest))).take 16 = iv := List.take_left' hiv
  have hdrop16 : (iv ++ (tag ++ ([x0, x1] ++ rest))).drop 16 = tag ++ ([x0, x1] ++ rest) :=
    List.drop_left' hiv
  have htag16 : (tag ++ ([x0, x1] ++ rest)).take 16 = tag := List.take_left' htag
  have hdrop34n : ∀ n, (iv ++ (tag ++ ([x0, x1] ++ rest))).drop (34 + n) = rest.drop n := by
    intro n
    rw [← List.drop_drop, hdrop34]
  simp only [decryptBlob]
  rw [if_neg (by omega)]
  rw [hg32, hg33, htake16, hdrop16, htag16, hdrop34, hdrop34n]

/-- Claim C1: for every payload and every valid RSA-OAEP keypair, unsealing a
blob produced by the server-side `sealBuffer` with the matching private key,
using the viewer-side `decryptBlob`, returns exactly the original payload.
The keypair is presented as a private key `sk` whose public key `R.pubOf sk`
is the one the supplied PEM body parses to; `aesKey` and `iv` are the random
draws `randomBytes(32)`/`randomBytes(16)` of this run. -/
theorem seal_unseal_roundtrip (A : AEAD) (R : RSA) (sk : R.Priv)
    (payload aesKey iv : List Nat) (pem : List Char)
    (hparse : R.parsePem (formatPublicKeyPem pem) = some (R.pubOf sk))
    (hiv : iv.length = 16) :
    (sealBuffer A R payload pem aesKey iv).bind (decryptBlob A R sk) = some payload := by
  rw [sealBuffer_eq A R payload pem aesKey iv _ hparse, Option.some_bind]
  have hassoc : iv ++ A.tagOf aesKey iv (A.ctOf aesKey iv payload) ++
      uint16be (R.enc (R.pubOf sk) aesKey).length ++ R.enc (R.pubOf sk) aesKey ++
      A.ctOf aesKey iv payload =
      iv ++ (A.tagOf aesKey iv (A.ctOf aesKey iv payload) ++
        ([(R.enc (R.pubOf sk) aesKey).length / 256, (R.enc (R.pubOf sk) aesKey).length % 256] ++
          (R.enc (R.pubOf sk) aesKey ++ A.ctOf aesKey iv payload))) := by
    simp [uint16be]
  rw [hassoc, decryptBlob_parts A R sk _ _ _ _ _ hiv (A.tagLen ..)]
  have hn : 256 * ((R.enc (R.pubOf sk) aesKey).length / 256) +
      (R.enc (R.pubOf sk) aesKey).length % 256 = (R.enc (R.pubOf sk) aesKey).length := by
    omega
  rw [hn, List.take_left, List.drop_left, R.dec_enc]
  show gcmDecrypt A aesKey iv
      (A.ctOf aesKey iv payload ++ A.tagOf aesKey iv (A.ctOf aesKey iv payload)) = some payload
  rw [gcmDecrypt_append A aesKey iv _ _ (A.tagLen ..), if_pos rfl, A.ctDec_ctOf]

/-- Concrete run of claim C1's theorem on the toy primitives. -/
theorem seal_unseal_roundtrip_witness :
    (sealBuffer toyAEAD toyRSA [104, 105] ['A'] [7] (List.replicate 16 0)).bind
      (decryptBlob toyAEAD toyRSA 0) = some [104, 105] :=
  seal_unseal_roundtrip toyAEAD toyRSA 0 [104, 105] [7] (List.replicate 16 0) ['A']
    (by decide) (by decide)

theorem five_field_parts (iv tg : List Nat) (x0 x1 : Nat) (wk ct : List Nat)
    (hiv : iv.length = 16) (htg : tg.length = 16) :
    (iv ++ (tg ++ ([x0, x1] ++ (wk ++ ct)))).length = 34 + wk.length + ct.length ∧
    (iv ++ (tg ++ ([x0, x1] ++ (wk ++ ct)))).take 16 = iv ∧
    ((iv ++ (tg ++ ([x0, x1] ++ (wk ++ ct)))).drop 16).take 16 = tg ∧
    (iv ++ (tg ++ ([x0, x1] ++ (wk ++ ct)))).getD 32 0 = x0 ∧
    (iv ++ (tg ++ ([x0, x1] ++ (wk ++ ct)))).getD 33 0 = x1 ∧
    ((iv ++ (tg ++ ([x0, x1] ++ (wk ++ ct)))).drop 34).take wk.length = wk ∧
    (iv ++ (tg ++ ([x0, x1] ++ (wk ++ ct)))).drop (34 + wk.length) = ct := by
  have hassoc32 : iv ++ (tg ++ ([x0, x1] ++ (wk ++ ct))) =
      (iv ++ tg) ++ ([x0, x1] ++ (wk ++ ct)) := by simp
  have hassoc34 : iv ++ (tg ++ ([x0, x1] ++ (wk ++ ct))) =
      ((iv ++ tg) ++ [x0, x1]) ++ (wk ++ ct) := by simp
  have hdrop32 : (iv ++ (tg ++ ([x0, x1] ++ (wk ++ ct)))).drop 32 = x0 :: x1 :: (wk ++ ct) := by
    rw [hassoc32, List.drop_left' (by simp [hiv, htg])]
    rfl
  have hdrop33 : (iv ++ (tg ++ ([x0, x1] ++ (wk ++ ct)))).drop 33 = x1 :: (wk ++ ct) := by
    rw [show (33 : Nat) = 32 + 1 from rfl, ← List.drop_drop, hdrop32]
    rfl
  have hdrop34 : (iv ++ (tg ++ ([x0, x1] ++ (wk ++ ct)))).drop 34 = wk ++ ct := by
    rw [hassoc34, List.drop_left' (by simp [hiv, htg])]
  have hdrop34n : (iv ++ (tg ++ ([x0, x1] ++ (wk ++ ct)))).drop (34 + wk.length) = ct := by
    rw [← List.drop_drop, hdrop34, List.drop_left]
  refine ⟨by simp [hiv, htg]; omega, List.take_left' hiv, ?_, ?_, ?_, ?_, hdrop34n⟩
  · rw [List.drop_left' hiv, List.take_left' htg]
  · exact getD_via_drop _ _ _ _ hdrop32
  · exact getD_via_drop _ _ _ _ hdrop33
  · rw [hdrop34, List.take_left]

/-- Claim C2 (amended): the server-side `sealBuffer` emits exactly the five
fields IV (16 bytes), AuthTag (16 bytes), KeyLength (2 bytes big-endian),
WrappedKey (KeyLength bytes), Ciphertext, in that byte order, so its output
length is 16 + 16 + 2 + len(wrapped key) + len(ciphertext) with the
ciphertext as long as the payload.  The frontend `encryptData` does NOT
follow this layout (see the counterexample): it emits a 12-byte IV, a
2-byte little-endian KeyLength, the wrapped key and the ciphertext with the
16-byte tag appended to it, so its output length is
len(iv) + 2 + len(wrapped key) + len(data) + 16. -/
theorem sealBuffer_layout (A : AEAD) (R : RSA) (pk : R.Pub)
    (payload aesKey iv : List Nat) (pem : List Char)
    (hparse : R.parsePem (formatPublicKeyPem pem) = some pk)
    (hiv : iv.length = 16) :
    (∃ blob, sealBuffer A R payload pem aesKey iv = some blob ∧
      blob.length = 16 + 16 + 2 + (R.enc pk aesKey).length + (A.ctOf aesKey iv payload).length ∧
      (A.ctOf aesKey iv payload).length = payload.length ∧
      blob.take 16 = iv ∧
      (blob.drop 16).take 16 = A.tagOf aesKey iv (A.ctOf aesKey iv payload) ∧
      256 * blob.getD 32 0 + blob.getD 33 0 = (R.enc pk aesKey).length ∧
      (blob.drop 34).take (R.enc pk aesKey).length = R.enc pk aesKey ∧
      blob.drop (34 + (R.enc pk aesKey).length) = A.ctOf aesKey iv payload) ∧
    (∀ data iv12, (encryptData A R pk data aesKey iv12).length =
      iv12.length + 2 + (R.enc pk aesKey).length + data.length + 16) := by
  constructor
  · have hassoc : iv ++ A.tagOf aesKey iv (A.ctOf aesKey iv payload) ++
        uint16be (R.enc pk aesKey).length ++ R.enc pk aesKey ++ A.ctOf aesKey iv payload =
        iv ++ (A.tagOf aesKey iv (A.ctOf aesKey iv payload) ++
          ([(R.enc pk aesKey).length / 256, (R.enc pk aesKey).length % 256] ++
            (R.enc pk aesKey ++ A.ctOf aesKey iv payload))) := by
      simp [uint16be]
    refine ⟨_, sealBuffer_eq A R payload pem aesKey iv pk hparse, ?_⟩
    rw [hassoc]
    obtain ⟨h1, h2, h3, h4, h5, h6, h7⟩ :=
      five_field_parts iv (A.tagOf aesKey iv (A.ctOf aesKey iv payload))
        ((R.enc pk aesKey).length / 256) ((R.enc pk aesKey).length % 256)
        (R.enc pk aesKey) (A.ctOf aesKey iv payload) hiv (A.tagLen ..)
    refine ⟨by rw [h1], A.ctLen .., h2, h3, ?_, h6, h7⟩
    rw [h4, h5]
    omega
  · intro data iv12
    simp [encryptData, gcmEncrypt, A.ctLen, A.tagLen, R.encLen]
    omega

/-- Concrete run of claim C2's (amended) theorem on the toy primitives. -/
theorem sealBuffer_layout_witness :
    (∃ blob, sealBuffer toyAEAD toyRSA [9] ['A'] [7] (List.replicate 16 0) = some blob ∧
      blob.length = 16 + 16 + 2 + (toyRSA.enc 0 [7]).length +
        (toyAEAD.ctOf [7] (List.replicate 16 0) [9]).length ∧
      (toyAEAD.ctOf [7] (List.replicate 16 0) [9]).length = ([9] : List Nat).length ∧
      blob.take 16 = List.replicate 16 0 ∧
      (blob.drop 16).take 16 =
        toyAEAD.tagOf [7] (List.replicate 16 0) (toyAEAD.ctOf [7] (List.replicate 16 0) [9]) ∧
      256 * blob.getD 32 0 + blob.getD 33 0 = (toyRSA.enc 0 [7]).length ∧
      (blob.drop 34).take (toyRSA.enc 0 [7]).length = toyRSA.enc 0 [7] ∧
      blob.drop (34 + (toyRSA.enc 0 [7]).length) = toyAEAD.ctOf [7] (List.replicate 16 0) [9]) ∧
    (∀ data iv12, (encryptData toyAEAD toyRSA 0 data [7] iv12).length =
      iv12.length + 2 + (toyRSA.enc 0 [7]).length + data.length + 16) :=
  sealBuffer_layout toyAEAD toyRSA 0 [9] [7] (List.replicate 16 0) ['A'] (by decide) (by decide)

/-- Claim C2 counterexample: the claim asserts the five-field layout and its
length law for the frontend `encryptData` as well, but on the empty payload
with the toy primitives `encryptData` produces 31 bytes while the claimed
length 16 + 16 + 2 + len(wrapped key) + len(ciphertext) is 35; `encryptData`
has no AuthTag field and only a 12-byte IV. -/
theorem encryptData_layout_cex :
    (encryptData toyAEAD toyRSA 0 [] [1] (List.replicate 12 0)).length = 31 ∧
    16 + 16 + 2 + (toyRSA.enc 0 [1]).length +
      (toyAEAD.ctOf [1] (List.replicate 12 0) []).length = 35 ∧
    (31 : Nat) ≠ 35 :=
  ⟨by decide, by decide, by decide⟩

/-! Tampering lemmas. -/

theorem getD_set_self (l : List Nat) (p v : Nat) (h : p < l.length) :
    (l.set p v).getD p 0 = v := by
  induction l generalizing p with
  | nil => simp at h
  | cons a t ih =>
      cases p with
      | zero => rfl
      | succ k => simpa using ih k (by simpa using h)

theorem xor_two_pow_ne (n j : Nat) : n ^^^ 2 ^ j ≠ n := by
  intro h
  have h2 := congrArg (Nat.testBit · j) h
  simp [Nat.testBit_xor, Nat.testBit_two_pow_self] at h2

theorem set_flip_ne (l : List Nat) (p j : Nat) (h : p < l.length) :
    l.set p (l.getD p 0 ^^^ 2 ^ j) ≠ l := by
  intro he
  have h2 := congrArg (fun x => x.getD p 0) he
  simp only at h2
  rw [getD_set_self l p _ h] at h2
  exact xor_two_pow_ne _ _ h2

theorem set_append_right (l1 l2 : List Nat) (p v : Nat) :
    (l1 ++ l2).set (l1.length + p) v = l1 ++ l2.set p v := by
  simp [List.set_append]

theorem set_append_left (l1 l2 : List Nat) (p v : Nat) (h : p < l1.length) :
    (l1 ++ l2).set p v = l1.set p v ++ l2 := by
  simp [List.set_append, h]

theorem take_append_right (l1 l2 : List Nat) (n : Nat) (h : l1.length ≤ n) :
    (l1 ++ l2).take n = l1 ++ l2.take (n - l1.length) := by
  rw [List.take_append_eq_append_take, List.take_of_length_le h]

theorem seal_blob_take (iv tg : List Nat) (x0 x1 : Nat) (wkct : List Nat) (n : Nat)
    (hiv : iv.length = 16) (htg : tg.length = 16) (hn : 34 ≤ n) :
    (iv ++ (tg ++ ([x0, x1] ++ wkct))).take n =
      iv ++ (tg ++ ([x0, x1] ++ wkct.take (n - 34))) := by
  rw [take_append_right _ _ _ (by omega), hiv]
  rw [take_append_right _ _ _ (by omega), htg]
  rw [take_append_right _ _ _ (by simp; omega)]
  have h2 : n - 16 - 16 - ([x0, x1] : List Nat).length = n - 34 := by simp; omega
  rw [h2]

theorem seal_blob_set_tag (iv tg rest : List Nat)
    (hiv : iv.length = 16) (htg : tg.length = 16) (p v : Nat) (hp : p < 16) :
    (iv ++ (tg ++ rest)).set (16 + p) v = iv ++ (tg.set p v ++ rest) := by
  rw [← hiv, set_append_right, set_append_left _ _ _ _ (by omega)]

theorem seal_blob_getD_tag (iv tg rest : List Nat)
    (hiv : iv.length = 16) (htg : tg.length = 16) (p : Nat) (hp : p < 16) :
    (iv ++ (tg ++ rest)).getD (16 + p) 0 = tg.getD p 0 := by
  rw [← hiv, List.getD_append_right _ _ _ _ (by omega)]
  have h1 : iv.length + p - iv.length = p := by omega
  rw [h1, List.getD_append _ _ _ _ (by omega)]

theorem seal_blob_set_ct (iv tg : List Nat) (x0 x1 : Nat) (wk ct : List Nat)
    (hiv : iv.length = 16) (htg : tg.length = 16) (q v : Nat) :
    (iv ++ (tg ++ ([x0, x1] ++ (wk ++ ct)))).set (34 + wk.length + q) v =
      iv ++ (tg ++ ([x0, x1] ++ (wk ++ ct.set q v))) := by
  have hB : iv ++ (tg ++ ([x0, x1] ++ (wk ++ ct))) =
      (iv ++ (tg ++ ([x0, x1] ++ wk))) ++ ct := by simp
  have hlen1 : (iv ++ (tg ++ ([x0, x1] ++ wk))).length = 34 + wk.length := by
    simp [hiv, htg]; omega
  rw [hB, ← hlen1, set_append_right]
  simp

theorem seal_blob_getD_ct (iv tg : List Nat) (x0 x1 : Nat) (wk ct : List Nat)
    (hiv : iv.length = 16) (htg : tg.length = 16) (q : Nat) :
    (iv ++ (tg ++ ([x0, x1] ++ (wk ++ ct)))).getD (34 + wk.length + q) 0 = ct.getD q 0 := by
  have hB : iv ++ (tg ++ ([x0, x1] ++ (wk ++ ct))) =
      (iv ++ (tg ++ ([x0, x1] ++ wk))) ++ ct := by simp
  have hlen1 : (iv ++ (tg ++ ([x0, x1] ++ wk))).length = 34 + wk.length := by
    simp [hiv, htg]; omega
  rw [hB, ← hlen1, List.getD_append_right _ _ _ _ (by omega)]
  have h1 : (iv ++ (tg ++ ([x0, x1] ++ wk))).length + q -
      (iv ++ (tg ++ ([x0, x1] ++ wk))).length = q := by omega
  rw [h1]

theorem decryptBlob_seal_shape (A : AEAD) (R : RSA) (sk : R.Priv)
    (aesKey iv tg wk ct : List Nat)
    (hiv : iv.length = 16) (htg : tg.length = 16)
    (hwk : wk = R.enc (R.pubOf sk) aesKey) :
    decryptBlob A R sk (iv ++ (tg ++ ([wk.length / 256, wk.length % 256] ++ (wk ++ ct)))) =
      if tg = A.tagOf aesKey iv ct then some (A.ctDec aesKey iv ct) else none := by
  rw [decryptBlob_parts A R sk iv tg _ _ _ hiv htg]
  have hn : 256 * (wk.length / 256) + wk.length % 256 = wk.length := by omega
  rw [hn, List.take_left, List.drop_left, hwk, R.dec_enc]
  show gcmDecrypt A aesKey iv (ct ++ tg) = _
  rw [gcmDecrypt_append A aesKey iv ct tg htg]

/-- Claim C3 (amended): for a blob produced by `sealBuffer`, `decryptBlob`
(and hence the verbatim copy `decryptSealedBlob`) fails — with the single
undifferentiated failure `none`, no cause distinguished — whenever (1) any
single bit of the AuthTag region (bytes 16..31) is flipped, (2) any single
bit of the Ciphertext region (bytes 34+KeyLength..end) is flipped, (3) the
private key does not match the sealing public key, or (4) the blob is
truncated.  (5) A `KeyLength` field pointing past the end of the buffer is
also rejected PROVIDED the ciphertext region is nonempty; the unamended
claim is false for empty payloads (see the counterexample): slicing clamps,
so the whole remainder is parsed as the wrapped key and the empty
ciphertext still authenticates. -/
theorem unseal_failure_semantics (A : AEAD) (R : RSA) (sk : R.Priv)
    (payload aesKey iv : List Nat) (pem : List Char) (blob : List Nat)
    (hparse : R.parsePem (formatPublicKeyPem pem) = some (R.pubOf sk))
    (hiv : iv.length = 16)
    (hblob : sealBuffer A R payload pem aesKey iv = some blob) :
    (∀ p j, p < 16 →
      decryptBlob A R sk (blob.set (16 + p) (blob.getD (16 + p) 0 ^^^ 2 ^ j)) = none) ∧
    (∀ q j, q < payload.length →
      decryptBlob A R sk
        (blob.set (34 + (R.enc (R.pubOf sk) aesKey).length + q)
          (blob.getD (34 + (R.enc (R.pubOf sk) aesKey).length + q) 0 ^^^ 2 ^ j)) = none) ∧
    (∀ sk2 : R.Priv, R.pubOf sk2 ≠ R.pubOf sk → decryptBlob A R sk2 blob = none) ∧
    (∀ n, n < blob.length → decryptBlob A R sk (blob.take n) = none) ∧
    (payload ≠ [] → ∀ m, m < 65536 →
      (R.enc (R.pubOf sk) aesKey).length + payload.length < m →
      decryptBlob A R sk
        (iv ++ A.tagOf aesKey iv (A.ctOf aesKey iv payload) ++ uint16be m ++
          R.enc (R.pubOf sk) aesKey ++ A.ctOf aesKey iv payload) = none) := by
  have hb := sealBuffer_eq A R payload pem aesKey iv _ hparse
  rw [hblob] at hb
  have hbeq : blob = iv ++ A.tagOf aesKey iv (A.ctOf aesKey iv payload) ++
      uint16be (R.enc (R.pubOf sk) aesKey).length ++ R.enc (R.pubOf sk) aesKey ++
      A.ctOf aesKey iv payload := Option.some.inj hb
  subst hbeq
  set ct := A.ctOf aesKey iv payload with hct
  set tg := A.tagOf aesKey iv ct with htg
  set wk := R.enc (R.pubOf sk) aesKey with hwk
  have htgl : tg.length = 16 := A.tagLen ..
  have hctl : ct.length = payload.length := A.ctLen ..
  have hklen : R.klen (R.pubOf sk) = wk.length := by rw [hwk, R.encLen]
  have hr : iv ++ tg ++ uint16be wk.length ++ wk ++ ct =
      iv ++ (tg ++ ([wk.length / 256, wk.length % 256] ++ (wk ++ ct))) := by
    simp [uint16be]
  have hn256 : 256 * (wk.length / 256) + wk.length % 256 = wk.length := by omega
  refine ⟨?_, ?_, ?_, ?_, ?_⟩
  · -- (1) AuthTag bit flip
    intro p j hp
    rw [hr, seal_blob_getD_tag iv tg _ hiv htgl p hp,
      seal_blob_set_tag iv tg _ hiv htgl p _ hp,
      decryptBlob_seal_shape A R sk aesKey iv _ wk ct hiv (by simp [htgl]) hwk,
      if_neg]
    rw [← htg]
    exact set_flip_ne tg p j (by omega)
  · -- (2) Ciphertext bit flip
    intro q j hq
    rw [hr, seal_blob_getD_ct iv tg _ _ wk ct hiv htgl q,
      seal_blob_set_ct iv tg _ _ wk ct hiv htgl q _,
      decryptBlob_seal_shape A R sk aesKey iv tg wk _ hiv htgl hwk,
      if_neg]
    intro he
    have h2 := A.tagInj aesKey iv ct (ct.set q (ct.getD q 0 ^^^ 2 ^ j)) (htg ▸ he)
    exact set_flip_ne ct q j (by omega) h2.symm
  · -- (3) wrong private key
    intro sk2 hne
    rw [hr, decryptBlob_parts A R sk2 iv tg _ _ _ hiv htgl, hn256, List.take_left, hwk,
      R.wrongKey sk2 (R.pubOf sk) aesKey hne.symm]
  · -- (4) truncation
    intro n hn
    have hblen : (iv ++ tg ++ uint16be wk.length ++ wk ++ ct).length =
        34 + wk.length + ct.length := by
      simp [hiv, htgl, uint16be]; omega
    by_cases hn34 : n < 34
    · unfold decryptBlob
      rw [if_pos]
      rw [List.length_take]
      omega
    · rw [hblen] at hn
      rw [hr, seal_blob_take iv tg _ _ _ n hiv htgl (by omega),
        decryptBlob_parts A R sk iv tg _ _ _ hiv htgl, hn256]
      have hwcl : (wk ++ ct).length = wk.length + ct.length := by simp
      by_cases hkl : n - 34 < wk.length
      · rw [R.decLen sk _ (by
          rw [hklen]
          simp only [List.length_take, hwcl]
          omega)]
      · rw [take_append_right wk ct _ (by omega), List.take_left, hwk, R.dec_enc]
        show gcmDecrypt A aesKey iv ((wk ++ ct.take (n - 34 - wk.length)).drop wk.length ++ tg)
            = none
        rw [List.drop_left, gcmDecrypt_append A aesKey iv _ tg htgl, if_neg]
        intro he
        have h2 := A.tagInj aesKey iv ct (ct.take (n - 34 - wk.length)) (htg.symm.trans he)
        have h3 := congrArg List.length h2
        rw [List.length_take] at h3
        omega
  · -- (5) KeyLength past buffer end, nonempty ciphertext
    intro hpay m hm hlt
    have hr5 : iv ++ tg ++ uint16be m ++ wk ++ ct =
        iv ++ (tg ++ ([m / 256, m % 256] ++ (wk ++ ct))) := by
      simp [uint16be]
    rw [hr5, decryptBlob_parts A R sk iv tg _ _ _ hiv htgl]
    have hm256 : 256 * (m / 256) + m % 256 = m := by omega
    have hwcl : (wk ++ ct).length = wk.length + ct.length := by simp
    have hp0 : 0 < payload.length := List.length_pos.mpr hpay
    rw [hm256, List.take_of_length_le (by omega)]
    rw [R.decLen sk _ (by rw [hklen]; omega)]

/-- Concrete run of claim C3's (amended) theorem on the toy primitives:
truncating the sealed blob to its first 20 bytes makes `decryptBlob`
fail, and decrypting with the non-matching private key 1 fails. -/
theorem unseal_failure_semantics_witness :
    decryptBlob toyAEAD toyRSA 0
      ((List.replicate 16 0 ++ toyAEAD.tagOf [7] (List.replicate 16 0)
          (toyAEAD.ctOf [7] (List.replicate 16 0) [5]) ++
        uint16be (toyRSA.enc 0 [7]).length ++ toyRSA.enc 0 [7] ++
        toyAEAD.ctOf [7] (List.replicate 16 0) [5]).take 20) = none ∧
    decryptBlob toyAEAD toyRSA 1
      (List.replicate 16 0 ++ toyAEAD.tagOf [7] (List.replicate 16 0)
          (toyAEAD.ctOf [7] (List.replicate 16 0) [5]) ++
        uint16be (toyRSA.enc 0 [7]).length ++ toyRSA.enc 0 [7] ++
        toyAEAD.ctOf [7] (List.replicate 16 0) [5]) = none := by
  have h := unseal_failure_semantics toyAEAD toyRSA 0 [5] [7] (List.replicate 16 0) ['A'] _
    (by decide) (by decide) rfl
  exact ⟨h.2.2.2.1 20 (by decide), h.2.2.1 1 (by decide)⟩

/-- Claim C3 counterexample: the unamended claim demands that a `KeyLength`
field pointing past the end of the buffer always makes unsealing fail, but
for the empty payload it does not.  With the toy primitives, the sealed
blob of the empty payload is 35 bytes (wrapped key length 1); rewriting its
KeyLength field to 2 makes it point past the end (34 + 2 > 35), yet
`decryptBlob` still succeeds and returns the empty payload. -/
theorem keyLength_overrun_empty_payload_cex :
    34 + 2 > (List.replicate 16 0 ++ toyAEAD.tagOf [1] (List.replicate 16 0) [] ++
      uint16be 2 ++ toyRSA.enc 0 [1]).length ∧
    decryptBlob toyAEAD toyRSA 0
      (List.replicate 16 0 ++ toyAEAD.tagOf [1] (List.replicate 16 0) [] ++
        uint16be 2 ++ toyRSA.enc 0 [1]) = some [] :=
  ⟨by decide, by decide⟩

/-! Failover lemmas. -/

theorem uploadGo_first_success (o : WalrusPutOutcome) (id : Nat) (rest : List WalrusPutOutcome)
    (ho : handleOf? o = some id) :
    ∀ (pre : List WalrusPutOutcome), (∀ p ∈ pre, handleOf? p = none) →
    ∀ le n, uploadGo (pre ++ o :: rest) le n = (.success id, n + pre.length + 1) := by
  intro pre
  induction pre with
  | nil =>
      intro _ le n
      cases o with
      | okNewlyCreated b => simp [handleOf?] at ho; subst ho; rfl
      | okAlreadyCertified b => simp [handleOf?] at ho; subst ho; rfl
      | transportFail e => simp [handleOf?] at ho
      | httpFail s => simp [handleOf?] at ho
      | okInvalidShape => simp [handleOf?] at ho
  | cons p t ih =>
      intro hpre le n
      have ht := fun q hq => hpre q (List.mem_cons_of_mem _ hq)
      have hp := hpre p (List.mem_cons_self _ _)
      cases p with
      | okNewlyCreated b => simp [handleOf?] at hp
      | okAlreadyCertified b => simp [handleOf?] at hp
      | transportFail e =>
          show uploadGo (t ++ o :: rest) (some (.transport e)) (n + 1) = _
          rw [ih ht _ _]
          congr 1
          simp only [List.length_cons]
          omega
      | httpFail s =>
          show uploadGo (t ++ o :: rest) (some (.http s)) (n + 1) = _
          rw [ih ht _ _]
          congr 1
          simp only [List.length_cons]
          omega
      | okInvalidShape =>
          show uploadGo (t ++ o :: rest) (some .invalidShape) (n + 1) = _
          rw [ih ht _ _]
          congr 1
          simp only [List.length_cons]
          omega

theorem uploadGo_exhaust :
    ∀ (outs : List WalrusPutOutcome) (h : outs ≠ []),
    (∀ o ∈ outs, handleOf? o = none) → ∀ le n,
    uploadGo outs le n = (.exhausted (some (errOf (outs.getLast h))), n + outs.length) := by
  intro outs
  induction outs with
  | nil => intro h; exact absurd rfl h
  | cons p t ih =>
      intro h hall le n
      have hp := hall p (List.mem_cons_self _ _)
      by_cases ht : t = []
      · subst ht
        cases p with
        | okNewlyCreated b => simp [handleOf?] at hp
        | okAlreadyCertified b => simp [handleOf?] at hp
        | transportFail e => rfl
        | httpFail s => rfl
        | okInvalidShape => rfl
      · have hall' := fun q hq => hall q (List.mem_cons_of_mem _ hq)
        have hgl : (p :: t).getLast h = t.getLast ht := List.getLast_cons ht
        cases p with
        | okNewlyCreated b => simp [handleOf?] at hp
        | okAlreadyCertified b => simp [handleOf?] at hp
        | transportFail e =>
            show uploadGo t (some (.transport e)) (n + 1) = _
            rw [ih ht hall' _ _, hgl]
            congr 1
            simp only [List.length_cons]
            omega
        | httpFail s =>
            show uploadGo t (some (.http s)) (n + 1) = _
            rw [ih ht hall' _ _, hgl]
            congr 1
            simp only [List.length_cons]
            omega
        | okInvalidShape =>
            show uploadGo t (some .invalidShape) (n + 1) = _
            rw [ih ht hall' _ _, hgl]
            congr 1
            simp only [List.length_cons]
            omega

theorem fetchGo_first_ok (A : AEAD) (R : RSA) (priv : Option R.Priv)
    (unzip : List Nat → Option (List Char)) (toText : List Nat → List Char)
    (b : List Nat) (rest : List AggOutcome) :
    ∀ (pre : List AggOutcome), (∀ p ∈ pre, isOkBlob p = false) →
    ∀ eA dA, fetchGo A R priv false unzip toText (pre ++ .okBlob b :: rest) eA dA =
      (some (renderBlob unzip toText b), eA + pre.length + 1, dA) := by
  intro pre
  induction pre with
  | nil => intro _ eA dA; rfl
  | cons p t ih =>
      intro hpre eA dA
      have ht := fun q hq => hpre q (List.mem_cons_of_mem _ hq)
      have hp := hpre p (List.mem_cons_self _ _)
      cases p with
      | okBlob bb => simp [isOkBlob] at hp
      | transportFail =>
          show fetchGo A R priv false unzip toText (t ++ .okBlob b :: rest) (eA + 1) dA = _
          rw [ih ht _ _]
          congr 2
          simp only [List.length_cons]
          omega
      | httpFail s =>
          show fetchGo A R priv false unzip toText (t ++ .okBlob b :: rest) (eA + 1) dA = _
          rw [ih ht _ _]
          congr 2
          simp only [List.length_cons]
          omega

theorem fetchGo_exhaust (A : AEAD) (R : RSA) (priv : Option R.Priv) (sealed : Bool)
    (unzip : List Nat → Option (List Char)) (toText : List Nat → List Char) :
    ∀ (outs : List AggOutcome), (∀ o ∈ outs, isOkBlob o = false) →
    ∀ eA dA, fetchGo A R priv sealed unzip toText outs eA dA = (none, eA + outs.length, dA) := by
  intro outs
  induction outs with
  | nil => intro _ eA dA; rfl
  | cons p t ih =>
      intro hall eA dA
      have ht := fun q hq => hall q (List.mem_cons_of_mem _ hq)
      have hp := hall p (List.mem_cons_self _ _)
      cases p with
      | okBlob bb => simp [isOkBlob] at hp
      | transportFail =>
          show fetchGo A R priv sealed unzip toText t (eA + 1) dA = _
          rw [ih ht _ _]
          congr 2
          simp only [List.length_cons]
          omega
      | httpFail s =>
          show fetchGo A R priv sealed unzip toText t (eA + 1) dA = _
          rw [ih ht _ _]
          congr 2
          simp only [List.length_cons]
          omega

/-- Claim C4: the write operation `uploadToWalrusDirectly` walks the
publisher pool in its fixed order with at most one request per endpoint;
it returns the blob id extracted from the first endpoint whose response
signals acceptance (freshly-stored `newlyCreated` or already-stored
`alreadyCertified` shape) after exactly one attempt past the failing
prefix, and when every endpoint fails it fails with the exhaustion error
carrying the last observed error, after exactly `len(pool)` attempts.
The read operation `fetchHtml` obeys the same ordered-failover and
exhaustion policy over the aggregator pool (its exhaustion error is the
fixed `Could not fetch content from any node` message). -/
theorem transfer_failover_policy :
    (∀ (pre : List WalrusPutOutcome) (o : WalrusPutOutcome) (id : Nat)
        (rest : List WalrusPutOutcome),
      (∀ p ∈ pre, handleOf? p = none) → handleOf? o = some id →
      uploadToWalrusDirectly (pre ++ o :: rest) = (.success id, pre.length + 1)) ∧
    (∀ (outs : List WalrusPutOutcome) (h : outs ≠ []),
      (∀ o ∈ outs, handleOf? o = none) →
      uploadToWalrusDirectly outs = (.exhausted (some (errOf (outs.getLast h))), outs.length)) ∧
    (∀ (A : AEAD) (R : RSA) (priv : Option R.Priv) (title : List Char)
        (unzip : List Nat → Option (List Char)) (toText : List Nat → List Char)
        (pre : List AggOutcome) (b : List Nat) (rest : List AggOutcome),
      title.contains '🔒' = false →
      (∀ p ∈ pre, isOkBlob p = false) →
      fetchHtml A R priv title unzip toText (pre ++ .okBlob b :: rest) =
        (some (renderBlob unzip toText b), pre.length + 1, 0)) ∧
    (∀ (A : AEAD) (R : RSA) (priv : Option R.Priv) (title : List Char)
        (unzip : List Nat → Option (List Char)) (toText : List Nat → List Char)
        (outs : List AggOutcome),
      (∀ o ∈ outs, isOkBlob o = false) →
      fetchHtml A R priv title unzip toText outs = (none, outs.length, 0)) := by
  refine ⟨?_, ?_, ?_, ?_⟩
  · intro pre o id rest hpre ho
    have h := uploadGo_first_success o id rest ho pre hpre none 0
    simpa using h
  · intro outs h hall
    have h2 := uploadGo_exhaust outs h hall none 0
    simpa using h2
  · intro A R priv title unzip toText pre b rest htitle hpre
    unfold fetchHtml
    rw [htitle]
    have h := fetchGo_first_ok A R priv unzip toText b rest pre hpre 0 0
    simpa using h
  · intro A R priv title unzip toText outs hall
    unfold fetchHtml
    have h := fetchGo_exhaust A R priv (title.contains '🔒') unzip toText outs hall 0 0
    simpa using h

/-- Concrete runs of claim C4's theorem: failover to the second publisher,
exhaustion carrying the last error, and the same two behaviours for the
aggregator read path. -/
theorem transfer_failover_policy_witness :
    uploadToWalrusDirectly [.httpFail 500, .okNewlyCreated 7] = (.success 7, 2) ∧
    uploadToWalrusDirectly [.httpFail 500, .transportFail 3] =
      (.exhausted (some (.transport 3)), 2) ∧
    fetchHtml toyAEAD toyRSA none ['t'] (fun _ => none) (fun _ => ['x'])
      [.httpFail 500, .okBlob [1]] = (some ['x'], 2, 0) ∧
    fetchHtml toyAEAD toyRSA none ['t'] (fun _ => none) (fun _ => ['x'])
      [.httpFail 500, .transportFail] = (none, 2, 0) := by
  have h := transfer_failover_policy
  refine ⟨?_, ?_, ?_, ?_⟩
  · exact h.1 [.httpFail 500] (.okNewlyCreated 7) 7 [] (by decide) (by decide)
  · exact h.2.1 [.httpFail 500, .transportFail 3] (by decide) (by decide)
  · exact h.2.2.1 toyAEAD toyRSA none ['t'] (fun _ => none) (fun _ => ['x'])
      [.httpFail 500] [1] [] (by decide) (by decide)
  · exact h.2.2.2 toyAEAD toyRSA none ['t'] (fun _ => none) (fun _ => ['x'])
      [.httpFail 500, .transportFail] (by decide)

theorem fetchGo_sealed_all_fail (A : AEAD) (R : RSA) (sk : R.Priv)
    (unzip : List Nat → Option (List Char)) (toText : List Nat → List Char) :
    ∀ (outs : List AggOutcome),
    (∀ b, AggOutcome.okBlob b ∈ outs → decryptSealedBlob A R sk b = none) →
    ∀ eA dA, fetchGo A R (some sk) true unzip toText outs eA dA =
      (none, eA + outs.length, dA + outs.countP isOkBlob) := by
  intro outs
  induction outs with
  | nil => intro _ eA dA; rfl
  | cons p t ih =>
      intro hall eA dA
      have ht := fun b hb => hall b (List.mem_cons_of_mem _ hb)
      cases p with
      | transportFail =>
          show fetchGo A R (some sk) true unzip toText t (eA + 1) dA = _
          rw [ih ht _ _]
          have hc : (AggOutcome.transportFail :: t).countP isOkBlob = t.countP isOkBlob := by
            simp [List.countP_cons, isOkBlob]
          rw [hc]
          simp only [Prod.mk.injEq, List.length_cons]
          exact ⟨trivial, by omega, trivial⟩
      | httpFail s =>
          show fetchGo A R (some sk) true unzip toText t (eA + 1) dA = _
          rw [ih ht _ _]
          have hc : (AggOutcome.httpFail s :: t).countP isOkBlob = t.countP isOkBlob := by
            simp [List.countP_cons, isOkBlob]
          rw [hc]
          simp only [Prod.mk.injEq, List.length_cons]
          exact ⟨trivial, by omega, trivial⟩
      | okBlob b =>
          have hb := hall b (List.mem_cons_self _ _)
          show (match decryptSealedBlob A R sk b with
                | none => fetchGo A R (some sk) true unzip toText t (eA + 1) (dA + 1)
                | some plain => (some (renderBlob unzip toText plain), eA + 1, dA + 1)) = _
          rw [hb]
          show fetchGo A R (some sk) true unzip toText t (eA + 1) (dA + 1) = _
          rw [ih ht _ _]
          have hc : (AggOutcome.okBlob b :: t).countP isOkBlob = t.countP isOkBlob + 1 := by
            simp [List.countP_cons, isOkBlob]
          rw [hc]
          simp only [Prod.mk.injEq, List.length_cons]
          exact ⟨trivial, by omega, by omega⟩

/-- Claim C5 (amended): a decryption failure in the viewer's read path is
NOT surfaced and does stop nothing: the error thrown after
`decryptSealedBlob` fails is caught by the per-aggregator loop of
`fetchHtml`, which moves on and re-attempts fetching AND decryption at the
next aggregator; when every aggregator's attempt fails this way, the caller
receives the generic transfer-exhaustion error (`none`), not a
`DecryptionFailed` error, after one decryption attempt per aggregator that
delivered a blob. -/
theorem decrypt_failure_failover (A : AEAD) (R : RSA) (sk : R.Priv)
    (title : List Char) (unzip : List Nat → Option (List Char))
    (toText : List Nat → List Char) (outs : List AggOutcome)
    (htitle : title.contains '🔒' = true)
    (hall : ∀ b, AggOutcome.okBlob b ∈ outs → decryptSealedBlob A R sk b = none) :
    fetchHtml A R (some sk) title unzip toText outs =
      (none, outs.length, outs.countP isOkBlob) := by
  unfold fetchHtml
  rw [htitle]
  have h := fetchGo_sealed_all_fail A R sk unzip toText outs hall 0 0
  simpa using h

/-- Concrete run of claim C5's (amended) theorem: two aggregators deliver
an undecryptable blob and a transport failure; the decryption failure is
followed by another endpoint attempt and the exhaustion error. -/
theorem decrypt_failure_failover_witness :
    fetchHtml toyAEAD toyRSA (some 0) ['🔒'] (fun _ => none) (fun _ => [])
      [.okBlob [], .httpFail 500] = (none, 2, 1) := by
  have hall : ∀ b, AggOutcome.okBlob b ∈
      ([.okBlob [], .httpFail 500] : List AggOutcome) →
      decryptSealedBlob toyAEAD toyRSA 0 b = none := by
    intro b hb
    simp at hb
    subst hb
    decide
  exact decrypt_failure_failover toyAEAD toyRSA 0 ['🔒'] (fun _ => none) (fun _ => [])
    [.okBlob [], .httpFail 500] (by decide) hall

/-- Claim C5 counterexample: the claim says that once decryption of a
fetched sealed blob fails, no further decryption attempt is made for that
request and the `DecryptionFailed` error is surfaced.  In the code the
decryption error is caught by the per-aggregator loop: with two aggregators
both returning the undecryptable blob `[]`, the run performs TWO decryption
attempts and ends with the generic exhaustion error (`none`), not the
decryption error. -/
theorem decrypt_failure_retried_cex :
    decryptSealedBlob toyAEAD toyRSA 0 [] = none ∧
    fetchHtml toyAEAD toyRSA (some 0) ['🔒'] (fun _ => none) (fun _ => [])
      [.okBlob [], .okBlob []] = (none, 2, 2) :=
  ⟨by decide, by decide⟩

theorem archiveAfterSeal_bytes (H : List Nat → List Nat) (title : List Char)
    (fb : List Nat) (isEnc : Bool) (outs : List WalrusPutOutcome) (cc : Bool) :
    (archiveAfterSeal H title fb isEnc outs cc).hashedBytes = some fb ∧
    (archiveAfterSeal H title fb isEnc outs cc).uploadedBytes = some fb ∧
    ((archiveAfterSeal H title fb isEnc outs cc).ok = true →
      (archiveAfterSeal H title fb isEnc outs cc).respHash = some (H fb)) := by
  unfold archiveAfterSeal
  cases h : (uploadToWalrusDirectly outs).1 with
  | exhausted e => simp [h]
  | success i => simp [h]

/-- Claim C6: when sealing is applied, the content hash recorded by the
`/api/archive` handler is computed over the sealed buffer — which differs
from the plaintext zip — and exactly that same buffer is handed to the
transfer layer for storage; when the handler answers ok, the hash it
reports is the digest of the uploaded bytes. -/
theorem fingerprint_covers_stored_bytes (A : AEAD) (R : RSA) (H : List Nat → List Nat)
    (title pem : List Char) (zipBuffer aesKey iv : List Nat)
    (outs : List WalrusPutOutcome) (chainConfigured : Bool) (pk : R.Pub)
    (hparse : R.parsePem (formatPublicKeyPem pem) = some pk)
    (hiv : iv.length = 16) :
    ∃ sealed, sealBuffer A R zipBuffer pem aesKey iv = some sealed ∧
      sealed ≠ zipBuffer ∧
      (archiveHandler A R H title (some pem) zipBuffer aesKey iv outs
        chainConfigured).hashedBytes = some sealed ∧
      (archiveHandler A R H title (some pem) zipBuffer aesKey iv outs
        chainConfigured).uploadedBytes = some sealed ∧
      ((archiveHandler A R H title (some pem) zipBuffer aesKey iv outs
          chainConfigured).ok = true →
        (archiveHandler A R H title (some pem) zipBuffer aesKey iv outs
          chainConfigured).respHash = some (H sealed)) := by
  have hs := sealBuffer_eq A R zipBuffer pem aesKey iv pk hparse
  have hh : archiveHandler A R H title (some pem) zipBuffer aesKey iv outs chainConfigured =
      archiveAfterSeal H title
        (iv ++ A.tagOf aesKey iv (A.ctOf aesKey iv zipBuffer) ++
          uint16be (R.enc pk aesKey).length ++ R.enc pk aesKey ++ A.ctOf aesKey iv zipBuffer)
        true outs chainConfigured := by
    simp only [archiveHandler]
    rw [hs]
  obtain ⟨h1, h2, h3⟩ := archiveAfterSeal_bytes H title
    (iv ++ A.tagOf aesKey iv (A.ctOf aesKey iv zipBuffer) ++
      uint16be (R.enc pk aesKey).length ++ R.enc pk aesKey ++ A.ctOf aesKey iv zipBuffer)
    true outs chainConfigured
  refine ⟨_, hs, ?_, by rw [hh]; exact h1, by rw [hh]; exact h2, by rw [hh]; exact h3⟩
  intro he
  have hl := congrArg List.length he
  simp [hiv, A.tagLen, A.ctLen, uint16be] at hl
  omega

/-- Concrete run of claim C6's theorem on the toy primitives. -/
theorem fingerprint_covers_stored_bytes_witness :
    ∃ sealed, sealBuffer toyAEAD toyRSA [9, 9] ['A'] [7] (List.replicate 16 0) = some sealed ∧
      sealed ≠ [9, 9] ∧
      (archiveHandler toyAEAD toyRSA (fun b => 1 :: b) ['t'] (some ['A']) [9, 9] [7]
        (List.replicate 16 0) [.okNewlyCreated 3] true).hashedBytes = some sealed ∧
      (archiveHandler toyAEAD toyRSA (fun b => 1 :: b) ['t'] (some ['A']) [9, 9] [7]
        (List.replicate 16 0) [.okNewlyCreated 3] true).uploadedBytes = some sealed ∧
      ((archiveHandler toyAEAD toyRSA (fun b => 1 :: b) ['t'] (some ['A']) [9, 9] [7]
          (List.replicate 16 0) [.okNewlyCreated 3] true).ok = true →
        (archiveHandler toyAEAD toyRSA (fun b => 1 :: b) ['t'] (some ['A']) [9, 9] [7]
          (List.replicate 16 0) [.okNewlyCreated 3] true).respHash = some (1 :: sealed)) :=
  fingerprint_covers_stored_bytes toyAEAD toyRSA (fun b => 1 :: b) ['t'] ['A'] [9, 9] [7]
    (List.replicate 16 0) [.okNewlyCreated 3] true 0 (by decide) (by decide)

/-- Claim C9: the backend `sealBuffer` wraps the supplied key string in PEM
delimiter lines itself, so a key string that already contains the PEM
header line fails to seal (the doubled delimiters make the PEM body
invalid), and the `/api/archive` handler then answers an error response
before any hashing, upload or on-chain write: every effect field of the
run is empty. -/
theorem pem_delimited_key_rejected (A : AEAD) (R : RSA) (H : List Nat → List Nat)
    (title pem : List Char) (zipBuffer aesKey iv : List Nat)
    (outs : List WalrusPutOutcome) (chainConfigured : Bool)
    (hdelim : pemHeader <:+: pem) :
    sealBuffer A R zipBuffer pem aesKey iv = none ∧
    archiveHandler A R H title (some pem) zipBuffer aesKey iv outs chainConfigured =
      { ok := false, hashedBytes := none, uploadedBytes := none, uploadResult := none,
        respTitle := none, chainTitle := none, respHash := none, isEncrypted := false } := by
  have hdash : '-' ∈ pem := hdelim.subset (by decide)
  have hparse : R.parsePem (formatPublicKeyPem pem) = none := by
    cases hp : R.parsePem (formatPublicKeyPem pem) with
    | none => rfl
    | some k => exact absurd hdash (R.parseSound pem k hp)
  have hseal : sealBuffer A R zipBuffer pem aesKey iv = none := by
    unfold sealBuffer publicEncryptOaep
    rw [hparse]
    rfl
  refine ⟨hseal, ?_⟩
  simp only [archiveHandler]
  rw [hseal]

/-- Concrete run of claim C9's theorem: supplying the PEM header line
itself as the key makes sealing fail and the handler abort with no
effects. -/
theorem pem_delimited_key_rejected_witness :
    sealBuffer toyAEAD toyRSA [1] pemHeader [2] (List.replicate 16 0) = none ∧
    archiveHandler toyAEAD toyRSA (fun b => b) ['t'] (some pemHeader) [1] [2]
      (List.replicate 16 0) [.okNewlyCreated 7] true =
      { ok := false, hashedBytes := none, uploadedBytes := none, uploadResult := none,
        respTitle := none, chainTitle := none, respHash := none, isEncrypted := false } :=
  pem_delimited_key_rejected toyAEAD toyRSA (fun b => b) ['t'] pemHeader [1] [2]
    (List.replicate 16 0) [.okNewlyCreated 7] true ⟨[], [], by simp⟩

theorem fetchGo_unsealed_no_decrypt (A : AEAD) (R : RSA) (priv : Option R.Priv)
    (unzip : List Nat → Option (List Char)) (toText : List Nat → List Char) :
    ∀ (outs : List AggOutcome) (eA dA : Nat),
    (fetchGo A R priv false unzip toText outs eA dA).2.2 = dA := by
  intro outs
  induction outs with
  | nil => intro eA dA; rfl
  | cons p t ih =>
      intro eA dA
      cases p with
      | transportFail => exact ih (eA + 1) dA
      | httpFail s => exact ih (eA + 1) dA
      | okBlob b => rfl

theorem fetchGo_dA_mono (A : AEAD) (R : RSA) (priv : Option R.Priv) (sealed : Bool)
    (unzip : List Nat → Option (List Char)) (toText : List Nat → List Char) :
    ∀ (outs : List AggOutcome) (eA dA : Nat),
    dA ≤ (fetchGo A R priv sealed unzip toText outs eA dA).2.2 := by
  intro outs
  induction outs with
  | nil => intro eA dA; exact le_refl _
  | cons p t ih =>
      intro eA dA
      cases p with
      | transportFail => exact ih (eA + 1) dA
      | httpFail s => exact ih (eA + 1) dA
      | okBlob b =>
          cases sealed with
          | false => exact le_refl _
          | true =>
              cases priv with
              | none => exact ih (eA + 1) dA
              | some sk =>
                  show dA ≤ (match decryptSealedBlob A R sk b with
                    | none => fetchGo A R (some sk) true unzip toText t (eA + 1) (dA + 1)
                    | some plain =>
                        (some (renderBlob unzip toText plain), eA + 1, dA + 1)).2.2
                  cases hd : decryptSealedBlob A R sk b with
                  | none => exact le_trans (Nat.le_succ dA) (ih (eA + 1) (dA + 1))
                  | some plain => exact Nat.le_succ dA

/-- Claim C10 (amended): the backend marks sealed archives by prefixing the
title with the lock marker, and the viewer attempts decryption exactly when
the stored title contains the marker — so the marker/sealed correspondence
is an iff only for requested titles that do not already contain the lock
marker.  (1) a sealed archive's stored title always contains the marker;
(2) when the requested title is marker-free, the stored title contains the
marker iff the archive was sealed, and an unsealed archive's title is
stored unchanged; (3) a title without the marker never triggers a
decryption attempt in `fetchHtml`; (4) a title with the marker makes
`fetchHtml` feed the first fetched blob to the unsealer (at least one
decryption attempt), whether or not the blob was actually sealed.  The
unamended iff fails when the user-supplied title itself contains the
marker (see the counterexample). -/
theorem lock_marker_semantics :
    (∀ title : List Char, (finalTitleOf true title).contains '🔒' = true) ∧
    (∀ (title : List Char) (sealed : Bool), title.contains '🔒' = false →
      ((finalTitleOf sealed title).contains '🔒' = sealed ∧
        (sealed = false → finalTitleOf sealed title = title))) ∧
    (∀ (A : AEAD) (R : RSA) (priv : Option R.Priv) (title : List Char)
        (unzip : List Nat → Option (List Char)) (toText : List Nat → List Char)
        (outs : List AggOutcome),
      title.contains '🔒' = false →
      (fetchHtml A R priv title unzip toText outs).2.2 = 0) ∧
    (∀ (A : AEAD) (R : RSA) (sk : R.Priv) (title : List Char)
        (unzip : List Nat → Option (List Char)) (toText : List Nat → List Char)
        (b : List Nat) (rest : List AggOutcome),
      title.contains '🔒' = true →
      1 ≤ (fetchHtml A R (some sk) title unzip toText (.okBlob b :: rest)).2.2) := by
  refine ⟨?_, ?_, ?_, ?_⟩
  · intro title
    simp [finalTitleOf]
  · intro title sealed htitle
    cases sealed with
    | false => exact ⟨by simpa [finalTitleOf] using htitle, fun _ => rfl⟩
    | true =>
        refine ⟨by simp [finalTitleOf], fun h => Bool.noConfusion h⟩
  · intro A R priv title unzip toText outs htitle
    unfold fetchHtml
    rw [htitle]
    exact fetchGo_unsealed_no_decrypt A R priv unzip toText outs 0 0
  · intro A R sk title unzip toText b rest htitle
    unfold fetchHtml
    rw [htitle]
    show 1 ≤ (match decryptSealedBlob A R sk b with
      | none => fetchGo A R (some sk) true unzip toText rest 1 1
      | some plain => (some (renderBlob unzip toText plain), 1, 1)).2.2
    cases hd : decryptSealedBlob A R sk b with
    | none => exact fetchGo_dA_mono A R (some sk) true unzip toText rest 1 1
    | some plain => exact le_refl 1

/-- Concrete runs of claim C10's (amended) theorem on the toy primitives. -/
theorem lock_marker_semantics_witness :
    (finalTitleOf true ['t']).contains '🔒' = true ∧
    (fetchHtml toyAEAD toyRSA none ['t'] (fun _ => none) (fun _ => [])
      [.okBlob []]).2.2 = 0 ∧
    1 ≤ (fetchHtml toyAEAD toyRSA (some 0) ['🔒'] (fun _ => none) (fun _ => [])
      [.okBlob []]).2.2 := by
  have h := lock_marker_semantics
  exact ⟨h.1 ['t'],
    h.2.2.1 toyAEAD toyRSA none ['t'] (fun _ => none) (fun _ => []) [.okBlob []] (by decide),
    h.2.2.2 toyAEAD toyRSA 0 ['🔒'] (fun _ => none) (fun _ => []) [] [] (by decide)⟩

/-- Claim C10 counterexample: the claim's iff — the stored title has the
lock prefix if and only if the blob was sealed — fails when the requested
title already contains the marker: archiving the title `🔒 x` WITHOUT a
recipient key stores it unchanged, so the stored title contains the marker
although the blob was not sealed (and the viewer would feed the unsealed
blob to the unsealer). -/
theorem lock_marker_without_seal_cex :
    finalTitleOf false ['🔒', ' ', 'x'] = ['🔒', ' ', 'x'] ∧
    (finalTitleOf false ['🔒', ' ', 'x']).contains '🔒' = true :=
  ⟨rfl, by decide⟩

theorem encryptData_parts (A : AEAD) (R : RSA) (pk : R.Pub) (data aesKey iv : List Nat)
    (hiv : iv.length = 12) :
    (encryptData A R pk data aesKey iv).take 12 = iv ∧
    ((encryptData A R pk data aesKey iv).drop 14).take (R.klen pk) = R.enc pk aesKey := by
  have hassoc : encryptData A R pk data aesKey iv =
      iv ++ ([(R.enc pk aesKey).length % 256, (R.enc pk aesKey).length / 256 % 256] ++
        (R.enc pk aesKey ++ gcmEncrypt A aesKey iv data)) := by
    simp [encryptData]
  constructor
  · rw [hassoc, List.take_left' hiv]
  · have hassoc2 : encryptData A R pk data aesKey iv =
        (iv ++ [(R.enc pk aesKey).length % 256, (R.enc pk aesKey).length / 256 % 256]) ++
          (R.enc pk aesKey ++ gcmEncrypt A aesKey iv data) := by
      simp [encryptData]
    rw [hassoc2, List.drop_left' (by simp [hiv]), ← R.encLen pk aesKey, List.take_left]

/-- Claim C7: two seal operations on the same payload and the same
recipient public key, run with independently drawn (hence distinct) fresh
randomness for the AES key and the IV, produce byte-for-byte different
blobs with different IV fields and different wrapped-key fields; this
holds for the backend `sealBuffer` and for the frontend `encryptData`. -/
theorem seal_freshness (A : AEAD) (R : RSA) (sk : R.Priv) (payload : List Nat)
    (k1 iv1 k2 iv2 : List Nat) (pem : List Char)
    (hparse : R.parsePem (formatPublicKeyPem pem) = some (R.pubOf sk))
    (hiv1 : iv1.length = 16) (hiv2 : iv2.length = 16)
    (hk : k1 ≠ k2) (hiv : iv1 ≠ iv2) :
    (∃ b1 b2, sealBuffer A R payload pem k1 iv1 = some b1 ∧
      sealBuffer A R payload pem k2 iv2 = some b2 ∧
      b1.take 16 ≠ b2.take 16 ∧ b1 ≠ b2 ∧
      (b1.drop 34).take (R.klen (R.pubOf sk)) ≠ (b2.drop 34).take (R.klen (R.pubOf sk))) ∧
    (∀ (data iv1' iv2' : List Nat), iv1'.length = 12 → iv2'.length = 12 → iv1' ≠ iv2' →
      (encryptData A R (R.pubOf sk) data k1 iv1').take 12 ≠
        (encryptData A R (R.pubOf sk) data k2 iv2').take 12 ∧
      encryptData A R (R.pubOf sk) data k1 iv1' ≠ encryptData A R (R.pubOf sk) data k2 iv2' ∧
      ((encryptData A R (R.pubOf sk) data k1 iv1').drop 14).take (R.klen (R.pubOf sk)) ≠
        ((encryptData A R (R.pubOf sk) data k2 iv2').drop 14).take (R.klen (R.pubOf sk))) := by
  have hwkne : R.enc (R.pubOf sk) k1 ≠ R.enc (R.pubOf sk) k2 := by
    intro he
    have h2 := congrArg (R.dec sk) he
    rw [R.dec_enc, R.dec_enc] at h2
    exact hk (Option.some.inj h2)
  constructor
  · have hs1 := sealBuffer_eq A R payload pem k1 iv1 _ hparse
    have hs2 := sealBuffer_eq A R payload pem k2 iv2 _ hparse
    refine ⟨_, _, hs1, hs2, ?_⟩
    have hr1 : iv1 ++ A.tagOf k1 iv1 (A.ctOf k1 iv1 payload) ++
        uint16be (R.enc (R.pubOf sk) k1).length ++ R.enc (R.pubOf sk) k1 ++
        A.ctOf k1 iv1 payload =
        iv1 ++ (A.tagOf k1 iv1 (A.ctOf k1 iv1 payload) ++
          ([(R.enc (R.pubOf sk) k1).length / 256, (R.enc (R.pubOf sk) k1).length % 256] ++
            (R.enc (R.pubOf sk) k1 ++ A.ctOf k1 iv1 payload))) := by
      simp [uint16be]
    have hr2 : iv2 ++ A.tagOf k2 iv2 (A.ctOf k2 iv2 payload) ++
        uint16be (R.enc (R.pubOf sk) k2).length ++ R.enc (R.pubOf sk) k2 ++
        A.ctOf k2 iv2 payload =
        iv2 ++ (A.tagOf k2 iv2 (A.ctOf k2 iv2 payload) ++
          ([(R.enc (R.pubOf sk) k2).length / 256, (R.enc (R.pubOf sk) k2).length % 256] ++
            (R.enc (R.pubOf sk) k2 ++ A.ctOf k2 iv2 payload))) := by
      simp [uint16be]
    obtain ⟨_, ht1, _, _, _, hw1, _⟩ := five_field_parts iv1
      (A.tagOf k1 iv1 (A.ctOf k1 iv1 payload)) ((R.enc (R.pubOf sk) k1).length / 256)
      ((R.enc (R.pubOf sk) k1).length % 256) (R.enc (R.pubOf sk) k1)
      (A.ctOf k1 iv1 payload) hiv1 (A.tagLen ..)
    obtain ⟨_, ht2, _, _, _, hw2, _⟩ := five_field_parts iv2
      (A.tagOf k2 iv2 (A.ctOf k2 iv2 payload)) ((R.enc (R.pubOf sk) k2).length / 256)
      ((R.enc (R.pubOf sk) k2).length % 256) (R.enc (R.pubOf sk) k2)
      (A.ctOf k2 iv2 payload) hiv2 (A.tagLen ..)
    have htk : (iv1 ++ A.tagOf k1 iv1 (A.ctOf k1 iv1 payload) ++
        uint16be (R.enc (R.pubOf sk) k1).length ++ R.enc (R.pubOf sk) k1 ++
        A.ctOf k1 iv1 payload).take 16 ≠
        (iv2 ++ A.tagOf k2 iv2 (A.ctOf k2 iv2 payload) ++
        uint16be (R.enc (R.pubOf sk) k2).length ++ R.enc (R.pubOf sk) k2 ++
        A.ctOf k2 iv2 payload).take 16 := by
      rw [hr1, hr2, ht1, ht2]
      exact hiv
    refine ⟨htk, fun he => htk (congrArg (List.take 16) he), ?_⟩
    have hkl1 : R.klen (R.pubOf sk) = (R.enc (R.pubOf sk) k1).length := (R.encLen ..).symm
    have hkl2 : R.klen (R.pubOf sk) = (R.enc (R.pubOf sk) k2).length := (R.encLen ..).symm
    rw [hr1, hr2]
    intro he
    apply hwkne
    calc R.enc (R.pubOf sk) k1
        = ((iv1 ++ (A.tagOf k1 iv1 (A.ctOf k1 iv1 payload) ++
            ([(R.enc (R.pubOf sk) k1).length / 256, (R.enc (R.pubOf sk) k1).length % 256] ++
              (R.enc (R.pubOf sk) k1 ++ A.ctOf k1 iv1 payload)))).drop 34).take
            (R.klen (R.pubOf sk)) := by rw [hkl1, hw1]
      _ = ((iv2 ++ (A.tagOf k2 iv2 (A.ctOf k2 iv2 payload) ++
            ([(R.enc (R.pubOf sk) k2).length / 256, (R.enc (R.pubOf sk) k2).length % 256] ++
              (R.enc (R.pubOf sk) k2 ++ A.ctOf k2 iv2 payload)))).drop 34).take
            (R.klen (R.pubOf sk)) := he
      _ = R.enc (R.pubOf sk) k2 := by rw [hkl2, hw2]
  · intro data iv1' iv2' h1 h2 hne
    obtain ⟨ha1, hb1⟩ := encryptData_parts A R (R.pubOf sk) data k1 iv1' h1
    obtain ⟨ha2, hb2⟩ := encryptData_parts A R (R.pubOf sk) data k2 iv2' h2
    have htk : (encryptData A R (R.pubOf sk) data k1 iv1').take 12 ≠
        (encryptData A R (R.pubOf sk) data k2 iv2').take 12 := by
      rw [ha1, ha2]
      exact hne
    refine ⟨htk, fun he => htk (congrArg (List.take 12) he), ?_⟩
    rw [hb1, hb2]
    exact hwkne

/-- Concrete run of claim C7's theorem on the toy primitives. -/
theorem seal_freshness_witness :
    (∃ b1 b2, sealBuffer toyAEAD toyRSA [9] ['A'] [1] (List.replicate 16 0) = some b1 ∧
      sealBuffer toyAEAD toyRSA [9] ['A'] [2] (1 :: List.replicate 15 0) = some b2 ∧
      b1.take 16 ≠ b2.take 16 ∧ b1 ≠ b2 ∧
      (b1.drop 34).take (toyRSA.klen 0) ≠ (b2.drop 34).take (toyRSA.klen 0)) ∧
    (∀ (data iv1' iv2' : List Nat), iv1'.length = 12 → iv2'.length = 12 → iv1' ≠ iv2' →
      (encryptData toyAEAD toyRSA 0 data [1] iv1').take 12 ≠
        (encryptData toyAEAD toyRSA 0 data [2] iv2').take 12 ∧
      encryptData toyAEAD toyRSA 0 data [1] iv1' ≠ encryptData toyAEAD toyRSA 0 data [2] iv2' ∧
      ((encryptData toyAEAD toyRSA 0 data [1] iv1').drop 14).take (toyRSA.klen 0) ≠
        ((encryptData toyAEAD toyRSA 0 data [2] iv2').drop 14).take (toyRSA.klen 0)) :=
  seal_freshness toyAEAD toyRSA 0 [9] [1] (List.replicate 16 0) [2] (1 :: List.replicate 15 0)
    ['A'] (by decide) (by decide) (by decide) (by decide) (by decide)

theorem b64c_ne_61 (n : Nat) : b64c n ≠ 61 := by
  unfold b64c
  split_ifs <;> omega

theorem b64idx_b64c : ∀ i < 64, b64idx (b64c i) = some i := by decide

theorem b64decode_b64encode : ∀ (l : List Nat), (∀ x ∈ l, x < 256) →
    b64decode (b64encode l) = some l
  | [] => fun _ => rfl
  | [a] => fun h => by
      have h1 : a < 256 := h a (by simp)
      have e1 := b64idx_b64c (a / 4) (by omega)
      have e2 := b64idx_b64c (a % 4 * 16) (by omega)
      show b64decode [b64c (a / 4), b64c (a % 4 * 16), 61, 61] = some [a]
      simp only [b64decode, e1, e2]
      simp
      omega
  | [a, b] => fun h => by
      have h1 : a < 256 := h a (by simp)
      have h2 : b < 256 := h b (by simp)
      have e1 := b64idx_b64c (a / 4) (by omega)
      have e2 := b64idx_b64c (a % 4 * 16 + b / 16) (by omega)
      have e3 := b64idx_b64c (b % 16 * 4) (by omega)
      show b64decode [b64c (a / 4), b64c (a % 4 * 16 + b / 16), b64c (b % 16 * 4), 61]
        = some [a, b]
      simp only [b64decode, e1, e2]
      rw [if_neg (b64c_ne_61 _)]
      simp only [e3]
      simp
      omega
  | a :: b :: c :: rest => fun h => by
      have h1 : a < 256 := h a (by simp)
      have h2 : b < 256 := h b (by simp)
      have h3 : c < 256 := h c (by simp)
      have hrest : ∀ x ∈ rest, x < 256 := fun x hx => h x (by simp [hx])
      have ih := b64decode_b64encode rest hrest
      have e1 := b64idx_b64c (a / 4) (by omega)
      have e2 := b64idx_b64c (a % 4 * 16 + b / 16) (by omega)
      have e3 := b64idx_b64c (b % 16 * 4 + c / 64) (by omega)
      have e4 := b64idx_b64c (c % 64) (by omega)
      show b64decode (b64c (a / 4) :: b64c (a % 4 * 16 + b / 16) ::
          b64c (b % 16 * 4 + c / 64) :: b64c (c % 64) :: b64encode rest)
        = some (a :: b :: c :: rest)
      simp only [b64decode, e1, e2]
      rw [if_neg (b64c_ne_61 _)]
      simp only [e3]
      rw [if_neg (b64c_ne_61 _)]
      simp only [e4, ih]
      simp only [Option.some.injEq, List.cons.injEq, and_true]
      refine ⟨by omega, by omega, by omega⟩

/-- Claim C8: importing an exported public key yields the same key back —
`importPublicKey (exportKey k) = some k` — so the re-imported key encrypts
identically to the original; likewise for the private key and decryption
(`importPrivateKey (exportPrivateKey sk) = some sk`).  The computational
content is the `btoa`/`atob` base64 round trip over the DER bytes. -/
theorem key_export_import_roundtrip (R : RSA) (C : SubtleCodec R) (k : R.Pub)
    (sk : R.Priv) :
    importPublicKey R C (exportKey R C k) = some k ∧
    (∀ m, ∃ k2, importPublicKey R C (exportKey R C k) = some k2 ∧
      R.enc k2 m = R.enc k m) ∧
    importPrivateKey R C (exportPrivateKey R C sk) = some sk ∧
    (∀ c, ∃ sk2, importPrivateKey R C (exportPrivateKey R C sk) = some sk2 ∧
      R.dec sk2 c = R.dec sk c) := by
  have hpub : importPublicKey R C (exportKey R C k) = some k := by
    unfold importPublicKey exportKey
    rw [b64decode_b64encode (C.spkiOf k) (C.spki_lt k)]
    simp [C.import_spkiOf]
  have hpriv : importPrivateKey R C (exportPrivateKey R C sk) = some sk := by
    unfold importPrivateKey exportPrivateKey
    rw [b64decode_b64encode (C.pkcs8Of sk) (C.pkcs8_lt sk)]
    simp [C.import_pkcs8Of]
  exact ⟨hpub, fun m => ⟨k, hpub, rfl⟩, hpriv, fun c => ⟨sk, hpriv, rfl⟩⟩

/-- Concrete run of claim C8's theorem on the toy primitives. -/
theorem key_export_import_roundtrip_witness :
    importPublicKey toyRSA toyCodec (exportKey toyRSA toyCodec 2) = some 2 ∧
    importPrivateKey toyRSA toyCodec (exportPrivateKey toyRSA toyCodec 3) = some 3 := by
  have h := key_export_import_roundtrip toyRSA toyCodec 2 3
  exact ⟨h.1, h.2.2.1⟩
